import Mathlib

/-!
# PointCloudEngine: codecs, octree and renderers

A shallow embedding of the sources of `PointCloudEngine`:

* `Color16`     : 6-6-4 bit packed colour (`Color16::Color16(byte, byte, byte)`),
* `PolarNormal` : two-byte polar encoding of a normal (`PolarNormal::PolarNormal(Vector3)`,
  `PolarNormal::ToVector3`),
* `OctreeNode`  : the octree node of `OctreeNode.h`; only the declarations are part of the
  sources, so construction and the two traversals follow the specification,
* `OctreeRenderer`, `PointCloudLODRenderer` : the level selector, the choice of the
  traversal, the splat size and the vertex buffer of `Update`, `Draw` and `SetSplatSize`,
* `Shader.octreeLayout` : the input layout of the octree shaders next to the members of
  `OctreeNodeVertex`.

Conventions of the embedding.

* A `byte` is a natural number; every store into a `byte` is an explicit reduction
  modulo 256, every store into an `unsigned short` a reduction modulo 65536.
* The `float` arithmetic of the colour codec is read over exact rationals, so the
  colour codec is executable. No channel value is a rounding tie, and the nearest tie
  is `1/170` away, far beyond `float` precision, so `round` sees the same integer.
* The `float` arithmetic of the normal codec (`acos`, `atan2f`, `sin`, `cos`, `XM_PI`)
  is read over the real numbers; the definitions that go through these functions cannot
  be executed, the byte-level guard of the constructor (`avoidEmpty`) can.
* The implicit conversion of a `float` to a `byte` discards the fractional part
  (truncation toward zero), it does not round.
* An `int` (the level selector, the view mode, `vertexBufferSize`) is an integer; the
  level moves by one per key press and stays far from the bounds of `int`.
-/

namespace PointCloudEngine

/-! ## Scalars -/

/-- The libm function `round` on exact rationals: the nearest integer, halfway cases
away from zero. -/
def roundHalfAway (q : ℚ) : ℤ :=
  if 0 ≤ q then ⌊q + 1 / 2⌋ else ⌈q - 1 / 2⌉

/-- Store of an integral value into a `byte` (`unsigned char`): reduction modulo 256. -/
def toByte (z : ℤ) : ℕ := (z % 256).toNat

/-- Store of an integral value into an `unsigned short`: reduction modulo 65536. -/
def toUShort (n : ℕ) : ℕ := n % 65536

/-- Conversion `float → byte` as done by the assignments `theta = 255.0f * ...` and
`phi = 127.5f + ...`: the fractional part is discarded (truncation toward zero) and the
integral part is stored into the byte. -/
noncomputable def truncToByte (x : ℝ) : ℕ :=
  toByte (if 0 ≤ x then ⌊x⌋ else ⌈x⌉)

/-! ## Color16 -/

/-- The struct `Color16`: one `unsigned short`, 6 bits red, 6 bits green, 4 bits blue. -/
structure Color16 where
  data : ℕ
deriving DecidableEq

namespace Color16

/-- The constructor `Color16()`. -/
def default : Color16 := ⟨0⟩

/-- The local `byte r = round(63 * (red / 255.0f))` (and likewise `g`, `b`) of the
constructor: the channel `c` scaled to `scale` levels, rounded, stored in a byte. -/
def channel (scale c : ℕ) : ℕ :=
  toByte (roundHalfAway ((scale : ℚ) * ((c : ℚ) / 255)))

/-- The constructor `Color16(byte red, byte green, byte blue)`. -/
def ofRGB (red green blue : ℕ) : Color16 :=
  let r := channel 63 red
  let g := channel 63 green
  let b := channel 15 blue
  let data := toUShort (r <<< 10)
  let data := toUShort (data ||| g <<< 4)
  let data := toUShort (data ||| b)
  ⟨data⟩

end Color16

/-! ## Vector3 -/

/-- The three `float` components of a SimpleMath `Vector3`, read as real numbers. -/
structure Vector3 where
  x : ℝ
  y : ℝ
  z : ℝ

namespace Vector3

/-- The zero vector `Vector3(0, 0, 0)`. -/
def zero : Vector3 := ⟨0, 0, 0⟩

/-- Euclidean length of a vector. -/
noncomputable def Length (v : Vector3) : ℝ :=
  Real.sqrt (v.x ^ 2 + v.y ^ 2 + v.z ^ 2)

/-- Modelled from the spec: `Vector3::Normalize` belongs to the external SimpleMath
library, its body is not part of the repository. It divides the vector by its length;
the zero vector is taken to the zero vector. -/
noncomputable def Normalize (v : Vector3) : Vector3 :=
  if v.Length = 0 then zero else ⟨v.x / v.Length, v.y / v.Length, v.z / v.Length⟩

/-- Scalar product of two vectors. -/
def dot (v w : Vector3) : ℝ := v.x * w.x + v.y * w.y + v.z * w.z

/-- Angle between two vectors, in radians. -/
noncomputable def angle (v w : Vector3) : ℝ :=
  Real.arccos (dot v w / (v.Length * w.Length))

/-- Multiplication of a vector by a scalar. -/
def scale (k : ℝ) (v : Vector3) : Vector3 := ⟨k * v.x, k * v.y, k * v.z⟩

end Vector3

/-- The libm function `atan2f(y, x)` over the reals: the argument of `x + i y`, in
`(-π, π]`, and `0` at the origin. -/
noncomputable def atan2 (y x : ℝ) : ℝ := Complex.arg ⟨x, y⟩

/-! ## PolarNormal -/

/-- The struct `PolarNormal`: inclination `theta` and azimuth `phi`, one byte each. -/
structure PolarNormal where
  theta : ℕ
  phi : ℕ
deriving DecidableEq

namespace PolarNormal

/-- The constructor `PolarNormal()`. -/
def default : PolarNormal := ⟨0, 0⟩

/-- The `float` value assigned to `theta`: `255.0f * (acos(normal.z) / XM_PI)`, for an
already normalized `normal`. -/
noncomputable def thetaValue (normal : Vector3) : ℝ :=
  255 * (Real.arccos normal.z / Real.pi)

/-- The `float` value assigned to `phi`:
`127.5f + 127.5f * (atan2f(normal.y, normal.x) / XM_PI)`, for an already normalized
`normal`. -/
noncomputable def phiValue (normal : Vector3) : ℝ :=
  127.5 + 127.5 * (atan2 normal.y normal.x / Real.pi)

/-- The guard closing the constructor: `if (theta == 0 && phi == 0) phi = 128;`. -/
def avoidEmpty (theta phi : ℕ) : PolarNormal :=
  if theta = 0 ∧ phi = 0 then ⟨theta, 128⟩ else ⟨theta, phi⟩

/-- The constructor `PolarNormal(Vector3 normal)`. -/
noncomputable def ofVector3 (normal : Vector3) : PolarNormal :=
  let normal := normal.Normalize
  let theta := truncToByte (thetaValue normal)
  let phi := truncToByte (phiValue normal)
  avoidEmpty theta phi

/-- The method `PolarNormal::ToVector3`. -/
noncomputable def ToVector3 (n : PolarNormal) : Vector3 :=
  if n.theta = 0 ∧ n.phi = 0 then Vector3.zero
  else
    let t := Real.pi * ((n.theta : ℝ) / 255)
    let p := Real.pi * (((n.phi : ℝ) / 127.5) - 1)
    ⟨Real.sin t * Real.cos p, Real.sin t * Real.sin p, Real.cos t⟩

end PolarNormal

/-! ## Notions used to state the properties -/

/-- An integer `k` is a nearest integer of the rational `q`. -/
def IsNearestInt (k : ℤ) (q : ℚ) : Prop :=
  ∀ j : ℤ, |(k : ℚ) - q| ≤ |(j : ℚ) - q|

/-- A vector of Euclidean length one. -/
def IsUnit3 (v : Vector3) : Prop := v.x ^ 2 + v.y ^ 2 + v.z ^ 2 = 1

/-- The unit vector `(0, -1, 0)`, on the equator at azimuth `-π/2`. -/
def negY : Vector3 := ⟨0, -1, 0⟩

/-- A unit vector close to the pole `(0, 0, 1)` with an azimuth close to `-π`. -/
noncomputable def nearPole : Vector3 :=
  ⟨-(1000 / 500001), -(1 / 500001), 500000 / 500001⟩

/-! ## Octree records and nodes -/

/-- The struct `Vertex`: a point of the `.ply` file with position, normal and colour. -/
structure Vertex where
  position : Vector3
  normal : Vector3
  color : Fin 3 → ℕ

/-- The struct `OctreeNodeVertex`: cube centre, six cluster normals, six cluster colours,
six cluster weight bytes and the width of the cube. -/
structure OctreeNodeVertex where
  position : Vector3
  normals : Fin 6 → PolarNormal
  colors : Fin 6 → Color16
  weights : Fin 6 → ℕ
  size : ℝ

/-- The class `OctreeNode` behind a pointer `OctreeNode*`: `null` is the `NULL` pointer,
`node` carries the member `nodeVertex` and the eight pointers `children[8]`. The list
`vertices` is the constructor argument the node was built from; the class does not store
it, it is kept here to speak about the point subset of a node. -/
inductive OctreeNode where
  | null : OctreeNode
  | node (vertices : List Vertex) (nodeVertex : OctreeNodeVertex)
      (children : Fin 8 → OctreeNode) : OctreeNode

namespace OctreeNode

/-- Test `children[i] == NULL`. -/
def isNull : OctreeNode → Bool
  | null => true
  | node _ _ _ => false

/-- Modelled from the spec: the body of `OctreeNode::IsLeafNode` is not part of the
sources. A node with zero children is a leaf. -/
def IsLeafNode : OctreeNode → Bool
  | null => true
  | node _ _ children => (List.finRange 8).all (fun i => (children i).isNull)

/-- Modelled from the spec: the octant of a point, three binary decisions comparing the
position with the centre of the cube on each axis independently, eight bins. -/
noncomputable def octantOf (center : Vector3) (v : Vertex) : Fin 8 :=
  Fin.ofNat
    ((if center.x ≤ v.position.x then 4 else 0) + (if center.y ≤ v.position.y then 2 else 0)
      + (if center.z ≤ v.position.z then 1 else 0))

/-- Modelled from the spec: the centre of the child cube of octant `i`, a cube of half the
edge length inside that octant of the parent. -/
noncomputable def childCenter (center : Vector3) (size : ℝ) (i : Fin 8) : Vector3 :=
  ⟨center.x + (if 4 ≤ i.val then size / 4 else -(size / 4)),
    center.y + (if 2 ≤ i.val % 4 then size / 4 else -(size / 4)),
    center.z + (if 1 ≤ i.val % 2 then size / 4 else -(size / 4))⟩

/-- The three arrays of a cluster summary: normals, colours and weight bytes. -/
structure ClusterSummary where
  normals : Fin 6 → PolarNormal
  colors : Fin 6 → Color16
  weights : Fin 6 → ℕ

/-- Modelled from the spec: the record of a node, cube centre and edge length together
with the cluster summary of the point subset of the node. The clustering pass itself
(`k`-means with `k = 6`, seeding unspecified) is the parameter `clusters`. -/
def makeNodeVertex (clusters : List Vertex → ClusterSummary) (vertices : List Vertex)
    (center : Vector3) (size : ℝ) : OctreeNodeVertex :=
  ⟨center, (clusters vertices).normals, (clusters vertices).colors,
    (clusters vertices).weights, size⟩

/-- Modelled from the spec: the constructor
`OctreeNode(vertices, center, size, depth)`, whose body is not part of the sources.
`remaining` is the number of levels left below this node, `maxDepth - depth`. Every node
summarises its own subset. At `depth == maxDepth`, or when the subset has fewer than
`leafThreshold` points, the node has no children. Otherwise the subset is split into the
eight octants and every non-empty octant becomes a child one level deeper with a cube of
half the edge length; an empty octant stays `NULL`. -/
noncomputable def build (clusters : List Vertex → ClusterSummary) (leafThreshold : ℕ) :
    ℕ → List Vertex → Vector3 → ℝ → OctreeNode
  | 0, vertices, center, size =>
      node vertices (makeNodeVertex clusters vertices center size) (fun _ => null)
  | remaining + 1, vertices, center, size =>
      if vertices.length < leafThreshold then
        node vertices (makeNodeVertex clusters vertices center size) (fun _ => null)
      else
        node vertices (makeNodeVertex clusters vertices center size)
          (fun i =>
            if (vertices.filter (fun v => octantOf center v = i)).isEmpty then null
            else
              build clusters leafThreshold remaining
                (vertices.filter (fun v => octantOf center v = i))
                (childCenter center size i) (size / 2))

/-- The point subsets of the leaf nodes of a tree, branch by branch. -/
def leafSubsets : OctreeNode → List (List Vertex)
  | null => []
  | node vertices _ children =>
      if (List.finRange 8).all (fun i => (children i).isNull) then [vertices]
      else (List.finRange 8).flatMap (fun i => leafSubsets (children i))

/-- The records of all nodes of a tree. -/
def records : OctreeNode → List OctreeNodeVertex
  | null => []
  | node _ nodeVertex children =>
      nodeVertex :: (List.finRange 8).flatMap (fun i => records (children i))

/-- Modelled from the spec: `OctreeNode::GetVerticesAtLevel(level)`, whose body is not
part of the sources. The descent goes `level` layers below the node it is called on; a
node at the requested layer emits its record, and so does a leaf met before that layer.
The root is level `0`. -/
def GetVerticesAtLevel : OctreeNode → ℤ → List OctreeNodeVertex
  | null, _ => []
  | node _ nodeVertex children, level =>
      if level = 0 ∨ (List.finRange 8).all (fun i => (children i).isNull) = true then
        [nodeVertex]
      else (List.finRange 8).flatMap (fun i => GetVerticesAtLevel (children i) (level - 1))

end OctreeNode

/-! ## Camera-adaptive traversal -/

/-- Euclidean distance of two points, `Vector3::Distance`. -/
noncomputable def Vector3.Distance (a b : Vector3) : ℝ :=
  Real.sqrt ((a.x - b.x) ^ 2 + (a.y - b.y) ^ 2 + (a.z - b.z) ^ 2)

/-- The `float` comparison `size / distance < splatSize`. At distance zero the quotient of
the `float` division is infinite or not a number, and the comparison is false. -/
def ratioBelow (size distance splatSize : ℝ) : Prop :=
  distance ≠ 0 ∧ size / distance < splatSize

/-- The node has no children, or its cube looks smaller than the splat size from the
camera: the condition under which the adaptive traversal emits a node. -/
def OctreeNode.stopsAt (localCameraPosition : Vector3) (splatSize : ℝ) : OctreeNode → Prop
  | OctreeNode.null => True
  | OctreeNode.node _ nodeVertex children =>
      (List.finRange 8).all (fun i => (children i).isNull) = true
        ∨ ratioBelow nodeVertex.size
            (Vector3.Distance localCameraPosition nodeVertex.position) splatSize

/-- Modelled from the spec: `OctreeNode::GetVertices(localCameraPosition, splatSize)`,
whose body is not part of the sources. A node without children, or one whose edge length
divided by the distance of its centre from the camera is below the splat size, emits its
record and the descent stops there; any other node hands over to all existing children. -/
noncomputable def OctreeNode.GetVertices :
    OctreeNode → Vector3 → ℝ → List OctreeNodeVertex
  | OctreeNode.null, _, _ => []
  | OctreeNode.node _ nodeVertex children, localCameraPosition, splatSize =>
      open Classical in
      if (List.finRange 8).all (fun i => (children i).isNull) = true
          ∨ ratioBelow nodeVertex.size
              (Vector3.Distance localCameraPosition nodeVertex.position) splatSize then
        [nodeVertex]
      else
        (List.finRange 8).flatMap
          (fun i => OctreeNode.GetVertices (children i) localCameraPosition splatSize)

/-- The adaptive traversal started at the first node arrives at the second one: it
descends only through nodes that do not stop the descent. -/
inductive OctreeNode.Reaches (stop : OctreeNode → Prop) : OctreeNode → OctreeNode → Prop
  | here (vertices : List Vertex) (nodeVertex : OctreeNodeVertex)
      (children : Fin 8 → OctreeNode) :
      OctreeNode.Reaches stop (OctreeNode.node vertices nodeVertex children)
        (OctreeNode.node vertices nodeVertex children)
  | down (vertices : List Vertex) (nodeVertex : OctreeNodeVertex)
      (children : Fin 8 → OctreeNode) (i : Fin 8) (n : OctreeNode) :
      ¬ stop (OctreeNode.node vertices nodeVertex children) →
      OctreeNode.Reaches stop (children i) n →
      OctreeNode.Reaches stop (OctreeNode.node vertices nodeVertex children) n

/-- A leaf lies `depth` layers below the node, at the end of a branch, and carries the
given record. -/
inductive OctreeNode.LeafAt : OctreeNode → ℕ → OctreeNodeVertex → Prop
  | leaf (vertices : List Vertex) (nodeVertex : OctreeNodeVertex)
      (children : Fin 8 → OctreeNode) :
      (List.finRange 8).all (fun i => (children i).isNull) = true →
      OctreeNode.LeafAt (OctreeNode.node vertices nodeVertex children) 0 nodeVertex
  | deeper (vertices : List Vertex) (nodeVertex : OctreeNodeVertex)
      (children : Fin 8 → OctreeNode) (i : Fin 8) (depth : ℕ) (r : OctreeNodeVertex) :
      OctreeNode.LeafAt (children i) depth r →
      OctreeNode.LeafAt (OctreeNode.node vertices nodeVertex children) (depth + 1) r

/-- Every node of a tree built with the given clustering satisfies the property, which
may speak of the point subset and of the record of the node. -/
def OctreeNode.AllNodes (P : List Vertex → OctreeNodeVertex → Prop) : OctreeNode → Prop
  | OctreeNode.null => True
  | OctreeNode.node vertices nodeVertex children =>
      P vertices nodeVertex ∧ ∀ i, OctreeNode.AllNodes P (children i)

/-! ## Cluster weights -/

/-- Modelled from the spec: the weight byte of cluster `k`, the fraction of the points of
the node assigned to the cluster, scaled to `0..255` and converted to a byte. The
assignment of the points to the six clusters is the outcome of the `k`-means pass; the
conversion `quantize` of the scaled fraction is left open by the spec. -/
def clusterWeight (quantize : ℚ → ℕ) (assignment : List (Fin 6)) (k : Fin 6) : ℕ :=
  quantize (255 * ((assignment.count k : ℚ) / (assignment.length : ℚ)))

/-- The clustering pass stores weight bytes that are the quantised fractions of some
assignment of the points of the node to the six clusters. -/
def WeightsFromAssignment (quantize : ℚ → ℕ) (clusters : List Vertex → OctreeNode.ClusterSummary) :
    Prop :=
  ∀ vertices : List Vertex, ∃ assignment : List (Fin 6),
    assignment.length = vertices.length
      ∧ ∀ k, (clusters vertices).weights k = clusterWeight quantize assignment k

/-- The conversion to a byte is off by at most one step from the scaled fraction. -/
def WithinOneStep (quantize : ℚ → ℕ) : Prop :=
  ∀ q : ℚ, 0 ≤ q → q ≤ 255 → |(quantize q : ℚ) - q| ≤ 1

/-! ## OctreeRenderer -/

/-- A SimpleMath `Matrix`, four rows of four `float`s read as real numbers. -/
abbrev Matrix4 : Type := Matrix (Fin 4) (Fin 4) ℝ

/-- A SimpleMath `Vector4`. -/
abbrev Vector4 : Type := Fin 4 → ℝ

/-- Modelled from the spec: `Matrix::Invert` of the external SimpleMath library, the
inverse of the matrix. -/
noncomputable def Matrix4.Invert (m : Matrix4) : Matrix4 := m⁻¹

/-- Modelled from the spec: `Vector4::Transform(v, m)` of the external SimpleMath
library, the row vector `v` times the matrix `m`. -/
def Vector4.Transform (v : Vector4) (m : Matrix4) : Vector4 := Matrix.vecMul v m

/-- The conversion of a `Vector4` to a `Vector3`, which keeps `x`, `y` and `z`. -/
def Vector4.toVector3 (v : Vector4) : Vector3 := ⟨v 0, v 1, v 2⟩

/-- The homogeneous point `Vector4(p.x, p.y, p.z, 1)`. -/
def Vector3.toPoint4 (p : Vector3) : Vector4 := ![p.x, p.y, p.z, 1]

/-- The part of the member `constantBufferData` that the renderer code writes by name. -/
structure OctreeRendererConstantBuffer where
  World : Matrix4
  cameraPosition : Vector3
  fovAngleY : ℝ
  splatSize : ℝ

/-- The state of an `OctreeRenderer`: the octree, the level selector, the view mode, the
result of the last traversal, the constant buffer data, and the vertex buffer together
with the number of records it was created for (`none` is the `NULL` buffer). -/
structure OctreeRenderer where
  octree : OctreeNode
  level : ℤ
  viewMode : ℤ
  octreeVertices : List OctreeNodeVertex
  constantBufferData : OctreeRendererConstantBuffer
  vertexBuffer : Option ℕ
  vertexBufferSize : ℤ

/-- What one frame hands to the renderer: the keys that went down in this frame, the
world matrix of the scene object and the position of the camera. -/
structure FrameInput where
  left : Bool
  right : Bool
  enter : Bool
  worldMatrix : Matrix4
  cameraPosition : Vector3

/-- The traversal that `Update` invokes, with its arguments. -/
inductive TraversalCall where
  | adaptive (localCameraPosition : Vector3) (splatSize : ℝ) : TraversalCall
  | fixedLevel (level : ℤ) : TraversalCall

namespace OctreeRenderer

/-- The constructor `OctreeRenderer(vertices)`, after the octree has been created: it
sets `fovAngleY` from the settings and `splatSize` to `0.01f`. The initial level and view
mode are the in-class initialisers of the header, which is not part of the sources, and
the other constant buffer entries start with whatever they hold; the renderer starts
without a vertex buffer. -/
noncomputable def new (octree : OctreeNode) (fovAngleY : ℝ) (level viewMode : ℤ)
    (world : Matrix4) (cameraPosition : Vector3) : OctreeRenderer :=
  { octree := octree
    level := level
    viewMode := viewMode
    octreeVertices := []
    constantBufferData := ⟨world, cameraPosition, fovAngleY, 0.01⟩
    vertexBuffer := none
    vertexBufferSize := 0 }

/-- The key handling that opens `Update`: the level after the Left and Right keys. -/
def selectLevel (r : OctreeRenderer) (f : FrameInput) : ℤ :=
  if f.left = true ∧ r.level > -1 then r.level - 1
  else if f.right = true ∧ (r.octreeVertices.length > 0 ∨ r.level < 0) then r.level + 1
  else r.level

/-- The view mode after the Enter key: `(viewMode + 1) % 3`. -/
def selectViewMode (r : OctreeRenderer) (f : FrameInput) : ℤ :=
  if f.enter = true then Int.tmod (r.viewMode + 1) 3 else r.viewMode

/-- The local `localCameraPosition` of `Update`: the camera position as a homogeneous
point, transformed by the inverse of the world matrix. -/
noncomputable def localCameraPosition (f : FrameInput) : Vector3 :=
  Vector4.toVector3 (Vector4.Transform f.cameraPosition.toPoint4 f.worldMatrix.Invert)

/-- The traversal chosen by `Update` after the key handling. -/
noncomputable def traversalCall (r : OctreeRenderer) (f : FrameInput) : TraversalCall :=
  if selectLevel r f < 0 then
    TraversalCall.adaptive (localCameraPosition f) r.constantBufferData.splatSize
  else TraversalCall.fixedLevel (selectLevel r f)

/-- The result of a traversal call on the octree. -/
noncomputable def runTraversal (octree : OctreeNode) : TraversalCall → List OctreeNodeVertex
  | TraversalCall.adaptive localCameraPosition splatSize =>
      octree.GetVertices localCameraPosition splatSize
  | TraversalCall.fixedLevel level => octree.GetVerticesAtLevel level

/-- The method `OctreeRenderer::Update` (the text overlay is left out). -/
noncomputable def Update (r : OctreeRenderer) (f : FrameInput) : OctreeRenderer :=
  { r with
    level := selectLevel r f
    viewMode := selectViewMode r f
    octreeVertices := runTraversal r.octree (traversalCall r f) }

/-- The method `OctreeRenderer::Draw`, as far as it changes the renderer: with a
non-empty traversal result the vertex buffer is recreated when the result is larger than
`vertexBufferSize` and updated in place otherwise, and the matrices and the camera
position of the constant buffer data are refreshed. -/
def Draw (r : OctreeRenderer) (f : FrameInput) : OctreeRenderer :=
  if (r.octreeVertices.length : ℤ) > 0 then
    let r1 : OctreeRenderer :=
      if (r.octreeVertices.length : ℤ) > r.vertexBufferSize then
        { r with
          vertexBuffer := some r.octreeVertices.length
          vertexBufferSize := r.octreeVertices.length }
      else r
    { r1 with
      constantBufferData :=
        { r1.constantBufferData with
          World := f.worldMatrix.transpose
          cameraPosition := f.cameraPosition } }
  else r

/-- The method `OctreeRenderer::SetSplatSize`. -/
def SetSplatSize (r : OctreeRenderer) (splatSize : ℝ) : OctreeRenderer :=
  { r with constantBufferData := { r.constantBufferData with splatSize := splatSize } }

end OctreeRenderer

/-- A call of one of the methods of the renderer that run after construction. -/
inductive RendererCall where
  | update (f : FrameInput) : RendererCall
  | draw (f : FrameInput) : RendererCall
  | setSplatSize (splatSize : ℝ) : RendererCall

/-- The renderer after one call. -/
noncomputable def OctreeRenderer.step (r : OctreeRenderer) : RendererCall → OctreeRenderer
  | RendererCall.update f => r.Update f
  | RendererCall.draw f => r.Draw f
  | RendererCall.setSplatSize s => r.SetSplatSize s

/-- The renderer after a sequence of calls, oldest first. -/
noncomputable def OctreeRenderer.run (r : OctreeRenderer) (calls : List RendererCall) :
    OctreeRenderer :=
  calls.foldl OctreeRenderer.step r

/-- The value given to the most recent `SetSplatSize` call of a sequence, if there is
one. -/
def lastSplatSize : List RendererCall → Option ℝ
  | [] => none
  | RendererCall.setSplatSize s :: rest => (lastSplatSize rest).orElse (fun _ => some s)
  | _ :: rest => lastSplatSize rest

/-! ## PointCloudLODRenderer -/

/-- The state of a `PointCloudLODRenderer` that `Update` reads and writes: the level and
the result of the last traversal. The traversal `octree->GetOctreeVerticesAtLevel` of the
older octree class is not part of the sources and is the field `getOctreeVerticesAtLevel`. -/
structure PointCloudLODRenderer (α : Type) where
  level : ℤ
  octreeVertices : List α
  getOctreeVerticesAtLevel : ℤ → List α

/-- The method `PointCloudLODRenderer::Update` (the text overlay is left out). -/
def PointCloudLODRenderer.Update {α : Type} (r : PointCloudLODRenderer α) (left right : Bool) :
    PointCloudLODRenderer α :=
  let level : ℤ :=
    if left = true ∧ r.level > 0 then r.level - 1
    else if right = true ∧ r.octreeVertices.length > 0 then r.level + 1
    else r.level
  { r with level := level, octreeVertices := r.getOctreeVerticesAtLevel level }

/-! ## Input layouts -/

/-- The semantic names used by the input layouts of `Shader.cpp`. -/
inductive SemanticName where
  | POSITION | OFFSET | RECT | NORMAL | COLOR | WEIGHT | SIZE
deriving DecidableEq

/-- The `DXGI_FORMAT` values used by the input layouts of `Shader.cpp`. -/
inductive DXGI_FORMAT where
  | R32G32_FLOAT | R32G32B32_FLOAT | R32G32B32A32_FLOAT | R8G8B8A8_UINT
  | R8G8_UINT | R16_UINT | R8_UINT | R32_FLOAT
deriving DecidableEq

/-- The kind of the scalars of a field. -/
inductive ScalarKind where
  | float | unsigned
deriving DecidableEq

/-- Number of scalars, bits per scalar and kind of a field. -/
structure FieldShape where
  count : ℕ
  bits : ℕ
  kind : ScalarKind
deriving DecidableEq

/-- What a `DXGI_FORMAT` name says: number of channels, bits per channel, kind. -/
def DXGI_FORMAT.shape : DXGI_FORMAT → FieldShape
  | DXGI_FORMAT.R32G32_FLOAT => ⟨2, 32, ScalarKind.float⟩
  | DXGI_FORMAT.R32G32B32_FLOAT => ⟨3, 32, ScalarKind.float⟩
  | DXGI_FORMAT.R32G32B32A32_FLOAT => ⟨4, 32, ScalarKind.float⟩
  | DXGI_FORMAT.R8G8B8A8_UINT => ⟨4, 8, ScalarKind.unsigned⟩
  | DXGI_FORMAT.R8G8_UINT => ⟨2, 8, ScalarKind.unsigned⟩
  | DXGI_FORMAT.R16_UINT => ⟨1, 16, ScalarKind.unsigned⟩
  | DXGI_FORMAT.R8_UINT => ⟨1, 8, ScalarKind.unsigned⟩
  | DXGI_FORMAT.R32_FLOAT => ⟨1, 32, ScalarKind.float⟩

/-- The first three entries of a `D3D11_INPUT_ELEMENT_DESC`: semantic name, semantic
index and format. The remaining entries are the same in every element of `Shader.cpp`. -/
structure InputElement where
  semanticName : SemanticName
  semanticIndex : ℕ
  format : DXGI_FORMAT
deriving DecidableEq

/-- The array `Shader::octreeLayout`. -/
def Shader.octreeLayout : List InputElement :=
  [ ⟨SemanticName.POSITION, 0, DXGI_FORMAT.R32G32B32_FLOAT⟩,
    ⟨SemanticName.NORMAL, 0, DXGI_FORMAT.R8G8_UINT⟩,
    ⟨SemanticName.NORMAL, 1, DXGI_FORMAT.R8G8_UINT⟩,
    ⟨SemanticName.NORMAL, 2, DXGI_FORMAT.R8G8_UINT⟩,
    ⟨SemanticName.NORMAL, 3, DXGI_FORMAT.R8G8_UINT⟩,
    ⟨SemanticName.NORMAL, 4, DXGI_FORMAT.R8G8_UINT⟩,
    ⟨SemanticName.NORMAL, 5, DXGI_FORMAT.R8G8_UINT⟩,
    ⟨SemanticName.COLOR, 0, DXGI_FORMAT.R16_UINT⟩,
    ⟨SemanticName.COLOR, 1, DXGI_FORMAT.R16_UINT⟩,
    ⟨SemanticName.COLOR, 2, DXGI_FORMAT.R16_UINT⟩,
    ⟨SemanticName.COLOR, 3, DXGI_FORMAT.R16_UINT⟩,
    ⟨SemanticName.COLOR, 4, DXGI_FORMAT.R16_UINT⟩,
    ⟨SemanticName.COLOR, 5, DXGI_FORMAT.R16_UINT⟩,
    ⟨SemanticName.WEIGHT, 0, DXGI_FORMAT.R8_UINT⟩,
    ⟨SemanticName.WEIGHT, 1, DXGI_FORMAT.R8_UINT⟩,
    ⟨SemanticName.WEIGHT, 2, DXGI_FORMAT.R8_UINT⟩,
    ⟨SemanticName.WEIGHT, 3, DXGI_FORMAT.R8_UINT⟩,
    ⟨SemanticName.WEIGHT, 4, DXGI_FORMAT.R8_UINT⟩,
    ⟨SemanticName.WEIGHT, 5, DXGI_FORMAT.R8_UINT⟩,
    ⟨SemanticName.SIZE, 0, DXGI_FORMAT.R32_FLOAT⟩ ]

/-- The scalar types of the members of the structs of `DataStructures.h`. -/
inductive MemberType where
  | Vector3 | PolarNormal | Color16 | byte | float
deriving DecidableEq

/-- The scalars a member type is made of: `Vector3` is three `float`s, `PolarNormal` two
`byte`s (`theta`, `phi`), `Color16` one `unsigned short`. -/
def MemberType.shape : MemberType → FieldShape
  | MemberType.Vector3 => ⟨3, 32, ScalarKind.float⟩
  | MemberType.PolarNormal => ⟨2, 8, ScalarKind.unsigned⟩
  | MemberType.Color16 => ⟨1, 16, ScalarKind.unsigned⟩
  | MemberType.byte => ⟨1, 8, ScalarKind.unsigned⟩
  | MemberType.float => ⟨1, 32, ScalarKind.float⟩

/-- A member declaration of a struct: its type and the number of array entries (`1` for
a member that is not an array). -/
structure Member where
  type : MemberType
  entries : ℕ
deriving DecidableEq

/-- The member declarations of the struct `OctreeNodeVertex`, in order: `position`,
`normals[6]`, `colors[6]`, `weights[6]`, `size`. -/
def OctreeNodeVertex.members : List Member :=
  [ ⟨MemberType.Vector3, 1⟩, ⟨MemberType.PolarNormal, 6⟩, ⟨MemberType.Color16, 6⟩,
    ⟨MemberType.byte, 6⟩, ⟨MemberType.float, 1⟩ ]

/-- The shapes of the fields of a struct, array entries one after the other. -/
def Member.fields (members : List Member) : List FieldShape :=
  members.flatMap (fun m => List.replicate m.entries m.type.shape)

/-- The layouts of `Shader.cpp`. -/
inductive LayoutName where
  | textLayout | splatLayout | octreeLayout
deriving DecidableEq

/-- The calls of `Shader::Create` in `InitializeScene`: the layout and the element count
passed, in order (text, splat, octree cube, octree splat, octree cluster). -/
def InitializeScene.shaderCreateCalls : List (LayoutName × ℕ) :=
  [ (LayoutName.textLayout, 3), (LayoutName.splatLayout, 3), (LayoutName.octreeLayout, 20),
    (LayoutName.octreeLayout, 20), (LayoutName.octreeLayout, 20) ]

/-- The layout the claim expects: `POSITION`, `NORMAL 0..5`, `COLOR 0..5`, `WEIGHT 0..5`,
`SIZE`, with the shape of each element. -/
def expectedOctreeLayout : List (SemanticName × ℕ × FieldShape) :=
  [(SemanticName.POSITION, 0, ⟨3, 32, ScalarKind.float⟩)]
    ++ (List.range 6).map (fun i => (SemanticName.NORMAL, i, ⟨2, 8, ScalarKind.unsigned⟩))
    ++ (List.range 6).map (fun i => (SemanticName.COLOR, i, ⟨1, 16, ScalarKind.unsigned⟩))
    ++ (List.range 6).map (fun i => (SemanticName.WEIGHT, i, ⟨1, 8, ScalarKind.unsigned⟩))
    ++ [(SemanticName.SIZE, 0, ⟨1, 32, ScalarKind.float⟩)]

/-! ## Vertex buffer handling of `Draw` -/

/-- The implicit conversion of an `int` to a `bool`: everything but zero is `true`. -/
def intToBool (n : ℤ) : Bool := n != 0

/-- What the window system answers during `InitializeWindow`: the class atom returned by
`RegisterClassEx` (zero on failure) and the window handle returned by `CreateWindowEx`
(`none` is `NULL`). -/
structure WindowSystem where
  registerClassEx : ℕ
  createWindowEx : Option ℕ

/-- The function `InitializeWindow`: `return 1` after a failed class registration,
`return 1` after a failed window creation, `return true` at the end. -/
def InitializeWindow (w : WindowSystem) : Bool :=
  if w.registerClassEx = 0 then intToBool 1
  else if w.createWindowEx = none then intToBool 1
  else true

/-- The ways `WinMain` can go. -/
inductive WinMainOutcome where
  | windowInitializationFailed | direct3DInitializationFailed | sceneInitializationFailed
  | ranMessageLoop
deriving DecidableEq

/-- The function `WinMain`: the three initialisation steps, each guarded by the negation
of its result, then the message loop. The results of `InitializeDirect3d11App` and of
`InitializeScene` are inputs. -/
def WinMain (w : WindowSystem) (direct3d scene : Bool) : WinMainOutcome :=
  if (!InitializeWindow w) = true then WinMainOutcome.windowInitializationFailed
  else if (!direct3d) = true then WinMainOutcome.direct3DInitializationFailed
  else if (!scene) = true then WinMainOutcome.sceneInitializationFailed
  else WinMainOutcome.ranMessageLoop

/-! ## Sample inputs -/

/-- A world matrix that scales by two. -/
def sampleWorld : Matrix4 := Matrix.diagonal ![2, 2, 2, 1]

/-- A frame in which the Right key goes down. -/
def sampleFrame : FrameInput := ⟨false, true, false, sampleWorld, ⟨2, 4, 6⟩⟩

/-- A point at the origin with normal `(0, -1, 0)` and a grey colour. -/
def sampleVertex : Vertex := ⟨Vector3.zero, negY, fun _ => 128⟩

/-- A conversion of the scaled fraction to a byte that discards the fractional part. -/
def sampleQuantize (q : ℚ) : ℕ := ⌊q⌋₊

/-- A clustering pass that puts a point into the cluster given by its red channel modulo
six and stores the truncated weights; normals and colours are left at their defaults. -/
def sampleClusters (vertices : List Vertex) : OctreeNode.ClusterSummary :=
  ⟨fun _ => PolarNormal.default, fun _ => Color16.default,
    clusterWeight sampleQuantize (vertices.map (fun v => Fin.ofNat (v.color 0)))⟩

/-- The record of a cube of edge length one around the origin holding the sample point. -/
def sampleNodeVertex : OctreeNodeVertex :=
  OctreeNode.makeNodeVertex sampleClusters [sampleVertex] Vector3.zero 1

/-- A tree that consists of one leaf holding the sample point. -/
def sampleLeaf : OctreeNode :=
  OctreeNode.node [sampleVertex] sampleNodeVertex (fun _ => OctreeNode.null)

/-! ## Colour codec: auxiliary facts -/

theorem roundHalfAway_of_nonneg {q : ℚ} (hq : 0 ≤ q) : roundHalfAway q = round q := by
  unfold roundHalfAway
  rw [if_pos hq, round_eq]

/-- On a channel value the rounded, scaled level is a plain integer quotient. -/
theorem channel_eq_div (scale c : ℕ) :
    Color16.channel scale c = ((2 * scale * c + 255) / 510) % 256 := by
  unfold Color16.channel toByte
  have hq : (0 : ℚ) ≤ (scale : ℚ) * ((c : ℚ) / 255) := by positivity
  have hfl : roundHalfAway ((scale : ℚ) * ((c : ℚ) / 255))
      = (((2 * scale * c + 255 : ℕ) : ℤ)) / ((510 : ℕ) : ℤ) := by
    unfold roundHalfAway
    rw [if_pos hq, ← Rat.floor_intCast_div_natCast]
    congr 1
    push_cast
    ring
  rw [hfl]
  omega

theorem channel_le (scale c : ℕ) (hs : scale ≤ 63) (hc : c ≤ 255) :
    Color16.channel scale c ≤ scale := by
  rw [channel_eq_div]
  have h : 2 * scale * c ≤ 2 * scale * 255 := Nat.mul_le_mul_left _ hc
  omega

theorem channel_mono (scale : ℕ) {c d : ℕ} (hs : scale ≤ 63) (hcd : c ≤ d) (hd : d ≤ 255) :
    Color16.channel scale c ≤ Color16.channel scale d := by
  have h1 := channel_le scale d hs hd
  rw [channel_eq_div] at h1 ⊢
  rw [channel_eq_div]
  have h : 2 * scale * c ≤ 2 * scale * d := Nat.mul_le_mul_left _ hcd
  have h2 : 2 * scale * d ≤ 2 * scale * 255 := Nat.mul_le_mul_left _ hd
  have h3 : (2 * scale * c + 255) / 510 ≤ (2 * scale * d + 255) / 510 :=
    Nat.div_le_div_right (by omega)
  omega

/-- The three shifted fields do not overlap, so the bitwise `or` is a sum. -/
theorem pack_eq (r g b : ℕ) (hr : r ≤ 63) (hg : g ≤ 63) (hb : b ≤ 15) :
    toUShort (toUShort (toUShort (r <<< 10) ||| g <<< 4) ||| b) = 1024 * r + 16 * g + b := by
  have h1 : 2 ^ 10 * r + 16 * g = 2 ^ 10 * r ||| 16 * g :=
    Nat.mul_add_lt_is_or (by omega) r
  have h2 : 2 ^ 4 * (64 * r + g) + b = 2 ^ 4 * (64 * r + g) ||| b :=
    Nat.mul_add_lt_is_or (by omega) _
  have e1 : r <<< 10 = 2 ^ 10 * r := by rw [Nat.shiftLeft_eq, Nat.mul_comm]
  have e2 : g <<< 4 = 16 * g := by rw [Nat.shiftLeft_eq, Nat.mul_comm]
  have e3 : toUShort (2 ^ 10 * r) = 2 ^ 10 * r := by unfold toUShort; omega
  have e4 : 2 ^ 10 * r + 16 * g = 2 ^ 4 * (64 * r + g) := by omega
  have e5 : toUShort (2 ^ 4 * (64 * r + g)) = 2 ^ 4 * (64 * r + g) := by
    unfold toUShort; omega
  rw [e1, e2, e3, ← h1, e4, e5, ← h2]
  unfold toUShort
  omega

theorem ofRGB_data (red green blue : ℕ) (hr : red ≤ 255) (hg : green ≤ 255)
    (hb : blue ≤ 255) :
    (Color16.ofRGB red green blue).data
      = 1024 * Color16.channel 63 red + 16 * Color16.channel 63 green
        + Color16.channel 15 blue := by
  unfold Color16.ofRGB
  exact pack_eq _ _ _ (channel_le 63 red (by omega) hr) (channel_le 63 green (by omega) hg)
    (channel_le 15 blue (by omega) hb)

theorem channel_nearest (scale c : ℕ) (hs : scale ≤ 63) (hc : c ≤ 255) :
    IsNearestInt (Color16.channel scale c) ((scale : ℚ) * (c : ℚ) / 255) := by
  intro j
  have hq : (0 : ℚ) ≤ (scale : ℚ) * ((c : ℚ) / 255) := by positivity
  have hround : ((Color16.channel scale c : ℕ) : ℤ)
      = round ((scale : ℚ) * ((c : ℚ) / 255)) := by
    rw [← roundHalfAway_of_nonneg hq]
    have hnn : 0 ≤ roundHalfAway ((scale : ℚ) * ((c : ℚ) / 255)) := by
      rw [roundHalfAway_of_nonneg hq, round_eq]
      exact Int.floor_nonneg.mpr (by positivity)
    have hlt : roundHalfAway ((scale : ℚ) * ((c : ℚ) / 255)) < 256 := by
      rw [roundHalfAway_of_nonneg hq, round_eq, Int.floor_lt]
      have h1 : (scale : ℚ) ≤ 63 := by exact_mod_cast hs
      have h2 : (c : ℚ) / 255 ≤ 1 := by
        rw [div_le_one (by norm_num)]
        exact_mod_cast hc
      have h3 : (0 : ℚ) ≤ (c : ℚ) / 255 := by positivity
      push_cast
      nlinarith
    unfold Color16.channel toByte
    omega
  have e : (((Color16.channel scale c : ℕ) : ℤ) : ℚ)
      = ((round ((scale : ℚ) * ((c : ℚ) / 255)) : ℤ) : ℚ) := by rw [hround]
  have e2 : (scale : ℚ) * (c : ℚ) / 255 = (scale : ℚ) * ((c : ℚ) / 255) := by ring
  rw [e2, e, abs_sub_comm, abs_sub_comm (j : ℚ)]
  exact round_le _ j

/-! ## Colour codec: the properties -/

/-- C8. Colour encode formula: for all `red`, `green`, `blue` in `0..255` the packed
value is `1024·R + 16·G + B`, where `R`, `G`, `B` are the nearest integers of
`63·red/255`, `63·green/255` and `15·blue/255`; bits 15..10 hold `R`, bits 9..4 hold
`G`, bits 3..0 hold `B`, and each field is a function of its own channel only. -/
theorem Color16_encode_formula (red green blue : ℕ) (hr : red ≤ 255) (hg : green ≤ 255)
    (hb : blue ≤ 255) :
    (Color16.ofRGB red green blue).data
        = 1024 * Color16.channel 63 red + 16 * Color16.channel 63 green
          + Color16.channel 15 blue
      ∧ IsNearestInt (Color16.channel 63 red) (63 * (red : ℚ) / 255)
      ∧ IsNearestInt (Color16.channel 63 green) (63 * (green : ℚ) / 255)
      ∧ IsNearestInt (Color16.channel 15 blue) (15 * (blue : ℚ) / 255)
      ∧ (Color16.ofRGB red green blue).data / 1024 = Color16.channel 63 red
      ∧ (Color16.ofRGB red green blue).data / 16 % 64 = Color16.channel 63 green
      ∧ (Color16.ofRGB red green blue).data % 16 = Color16.channel 15 blue := by
  have hR := channel_le 63 red (le_refl _) hr
  have hG := channel_le 63 green (le_refl _) hg
  have hB := channel_le 15 blue (by omega) hb
  have hdata := ofRGB_data red green blue hr hg hb
  have nR := channel_nearest 63 red (le_refl _) hr
  have nG := channel_nearest 63 green (le_refl _) hg
  have nB := channel_nearest 15 blue (by omega) hb
  push_cast at nR nG nB
  refine ⟨hdata, nR, nG, nB, ?_, ?_, ?_⟩ <;> omega

/-- Instance of C8 at the colour `(255, 128, 7)`. -/
theorem Color16_encode_formula_witness :
    (255 ≤ 255 ∧ 128 ≤ 255 ∧ 7 ≤ 255)
      ∧ (Color16.ofRGB 255 128 7).data
          = 1024 * Color16.channel 63 255 + 16 * Color16.channel 63 128
            + Color16.channel 15 7 :=
  ⟨by decide, (Color16_encode_formula 255 128 7 (by decide) (by decide) (by decide)).1⟩

/-- C9. Colour encode endpoints: black packs to `0` and white packs to `0xFFFF`. -/
theorem Color16_encode_endpoints :
    (Color16.ofRGB 0 0 0).data = 0 ∧ (Color16.ofRGB 255 255 255).data = 0xFFFF := by
  constructor
  · rw [ofRGB_data 0 0 0 (by decide) (by decide) (by decide)]
    simp only [channel_eq_div]
  · rw [ofRGB_data 255 255 255 (by decide) (by decide) (by decide)]
    simp only [channel_eq_div]

/-- C10. Colour encode is monotone: raising channels never lowers the packed value, and
every packed value lies between the encodings of black and of white. -/
theorem Color16_encode_monotone (r1 g1 b1 r2 g2 b2 : ℕ) (hr : r1 ≤ r2) (hg : g1 ≤ g2)
    (hb : b1 ≤ b2) (hr2 : r2 ≤ 255) (hg2 : g2 ≤ 255) (hb2 : b2 ≤ 255) :
    (Color16.ofRGB r1 g1 b1).data ≤ (Color16.ofRGB r2 g2 b2).data
      ∧ (Color16.ofRGB 0 0 0).data ≤ (Color16.ofRGB r1 g1 b1).data
      ∧ (Color16.ofRGB r1 g1 b1).data ≤ (Color16.ofRGB 255 255 255).data := by
  have mR := channel_mono 63 (le_refl _) hr hr2
  have mG := channel_mono 63 (le_refl _) hg hg2
  have mB := channel_mono 15 (by omega) hb hb2
  have tR := channel_le 63 r1 (le_refl _) (by omega)
  have tG := channel_le 63 g1 (le_refl _) (by omega)
  have tB := channel_le 15 b1 (by omega) (by omega)
  have e0 : (Color16.ofRGB 0 0 0).data = 0 := by
    rw [ofRGB_data 0 0 0 (by decide) (by decide) (by decide)]
    simp only [channel_eq_div]
  have e1 : (Color16.ofRGB 255 255 255).data = 65535 := by
    rw [ofRGB_data 255 255 255 (by decide) (by decide) (by decide)]
    simp only [channel_eq_div]
  rw [e0, e1, ofRGB_data r1 g1 b1 (by omega) (by omega) (by omega),
    ofRGB_data r2 g2 b2 hr2 hg2 hb2]
  refine ⟨?_, ?_, ?_⟩ <;> omega

/-- Instance of C10 at the colours `(10, 20, 30) ≤ (200, 20, 31)`. -/
theorem Color16_encode_monotone_witness :
    (10 ≤ 200 ∧ 20 ≤ 20 ∧ 30 ≤ 31 ∧ 200 ≤ 255 ∧ 20 ≤ 255 ∧ 31 ≤ 255)
      ∧ (Color16.ofRGB 10 20 30).data ≤ (Color16.ofRGB 200 20 31).data :=
  ⟨by decide,
    (Color16_encode_monotone 10 20 30 200 20 31 (by decide) (by decide) (by decide)
      (by decide) (by decide) (by decide)).1⟩

/-! ## Normal codec: auxiliary facts -/

theorem toByte_of_lt {z : ℤ} (h0 : 0 ≤ z) (h : z < 256) : toByte z = z.toNat := by
  unfold toByte
  rw [Int.emod_eq_of_lt h0 h]

theorem truncToByte_eq_floor {x : ℝ} (h0 : 0 ≤ x) (h : x < 256) : truncToByte x = ⌊x⌋₊ := by
  unfold truncToByte
  rw [if_pos h0, toByte_of_lt (Int.floor_nonneg.mpr h0), Int.floor_toNat]
  exact Int.floor_lt.mpr (by exact_mod_cast h)

theorem Length_of_unit {v : Vector3} (h : IsUnit3 v) : v.Length = 1 := by
  unfold Vector3.Length
  rw [h, Real.sqrt_one]

theorem Normalize_of_unit {v : Vector3} (h : IsUnit3 v) : v.Normalize = v := by
  unfold Vector3.Normalize
  rw [Length_of_unit h, if_neg one_ne_zero]
  simp

theorem avoidEmpty_ne (theta phi : ℕ) : PolarNormal.avoidEmpty theta phi ≠ ⟨0, 0⟩ := by
  unfold PolarNormal.avoidEmpty
  split_ifs with h
  · simp
  · intro hc
    rw [PolarNormal.mk.injEq] at hc
    exact h hc

theorem avoidEmpty_theta (theta phi : ℕ) : (PolarNormal.avoidEmpty theta phi).theta = theta := by
  unfold PolarNormal.avoidEmpty
  split_ifs <;> rfl

theorem ToVector3_of_ne (n : PolarNormal) (h : ¬ (n.theta = 0 ∧ n.phi = 0)) :
    n.ToVector3 =
      ⟨Real.sin (Real.pi * ((n.theta : ℝ) / 255))
          * Real.cos (Real.pi * (((n.phi : ℝ) / 127.5) - 1)),
        Real.sin (Real.pi * ((n.theta : ℝ) / 255))
          * Real.sin (Real.pi * (((n.phi : ℝ) / 127.5) - 1)),
        Real.cos (Real.pi * ((n.theta : ℝ) / 255))⟩ := by
  unfold PolarNormal.ToVector3
  rw [if_neg h]

theorem spherical_unit (t p : ℝ) :
    IsUnit3 ⟨Real.sin t * Real.cos p, Real.sin t * Real.sin p, Real.cos t⟩ := by
  unfold IsUnit3
  have h1 := Real.sin_sq_add_cos_sq t
  have h2 := Real.sin_sq_add_cos_sq p
  simp only
  nlinarith [h1, h2]

theorem thetaValue_range (v : Vector3) :
    0 ≤ PolarNormal.thetaValue v ∧ PolarNormal.thetaValue v ≤ 255 := by
  unfold PolarNormal.thetaValue
  have h0 := Real.arccos_nonneg v.z
  have h1 := Real.arccos_le_pi v.z
  have hpi := Real.pi_pos
  constructor
  · positivity
  · have : Real.arccos v.z / Real.pi ≤ 1 := (div_le_one hpi).mpr h1
    linarith

theorem phiValue_range (v : Vector3) :
    0 < PolarNormal.phiValue v ∧ PolarNormal.phiValue v ≤ 255 := by
  unfold PolarNormal.phiValue atan2
  have h0 := Complex.neg_pi_lt_arg ⟨v.x, v.y⟩
  have h1 := Complex.arg_le_pi ⟨v.x, v.y⟩
  have hpi := Real.pi_pos
  have hlo : -1 < Complex.arg ⟨v.x, v.y⟩ / Real.pi := by
    rw [lt_div_iff₀ hpi]; linarith
  have hhi : Complex.arg ⟨v.x, v.y⟩ / Real.pi ≤ 1 := (div_le_one hpi).mpr h1
  constructor <;> linarith

/-- The constructor stores the integral parts of the two angle values. -/
theorem ofVector3_eq (v : Vector3) :
    PolarNormal.ofVector3 v
      = PolarNormal.avoidEmpty ⌊PolarNormal.thetaValue v.Normalize⌋₊
          ⌊PolarNormal.phiValue v.Normalize⌋₊ := by
  unfold PolarNormal.ofVector3
  have ht := thetaValue_range v.Normalize
  have hp := phiValue_range v.Normalize
  simp only
  rw [truncToByte_eq_floor ht.1 (by linarith), truncToByte_eq_floor hp.1.le (by linarith)]

theorem ofVector3_ne (v : Vector3) : PolarNormal.ofVector3 v ≠ ⟨0, 0⟩ := by
  rw [ofVector3_eq]
  exact avoidEmpty_ne _ _

theorem Normalize_zero : Vector3.zero.Normalize = Vector3.zero := by
  unfold Vector3.Normalize Vector3.Length Vector3.zero
  simp

theorem floor_127_5 : ⌊(127.5 : ℝ)⌋₊ = 127 := by
  rw [Nat.floor_eq_iff (by norm_num)]
  norm_num

theorem thetaValue_zero : PolarNormal.thetaValue Vector3.zero = 127.5 := by
  unfold PolarNormal.thetaValue Vector3.zero
  simp only [Real.arccos_zero]
  have hpi := Real.pi_ne_zero
  field_simp
  ring

theorem phiValue_zero : PolarNormal.phiValue Vector3.zero = 127.5 := by
  unfold PolarNormal.phiValue atan2 Vector3.zero
  have e : (⟨0, 0⟩ : ℂ) = 0 := rfl
  rw [e, Complex.arg_zero]
  simp

theorem ofVector3_zero : PolarNormal.ofVector3 Vector3.zero = ⟨127, 127⟩ := by
  rw [ofVector3_eq, Normalize_zero, thetaValue_zero, phiValue_zero, floor_127_5]
  decide

theorem nearPole_unit : IsUnit3 nearPole := by
  unfold IsUnit3 nearPole
  norm_num

/-- An inclination below one step of `π / 255` whenever the height is close to one. -/
theorem arccos_lt_step {z : ℝ} (hz1 : -1 ≤ z) (hz2 : z ≤ 1) (hz : 1 - 2 / 65025 < z) :
    Real.arccos z < Real.pi / 255 := by
  by_contra hcon
  push_neg at hcon
  have hpi := Real.pi_pos
  have h1 : Real.cos (Real.arccos z) ≤ Real.cos (Real.pi / 255) :=
    Real.cos_le_cos_of_nonneg_of_le_pi (by positivity) (Real.arccos_le_pi z) hcon
  rw [Real.cos_arccos hz1 hz2] at h1
  have h2 : Real.cos (Real.pi / 255) ≤ 1 - 2 / Real.pi ^ 2 * (Real.pi / 255) ^ 2 := by
    apply Real.cos_le_one_sub_mul_cos_sq
    rw [abs_of_nonneg (by positivity)]
    linarith
  have h3 : 2 / Real.pi ^ 2 * (Real.pi / 255) ^ 2 = 2 / 65025 := by
    field_simp
    ring
  rw [h3] at h2
  linarith

theorem thetaValue_nearPole : PolarNormal.thetaValue nearPole < 1 := by
  unfold PolarNormal.thetaValue
  have hpi := Real.pi_pos
  have h : Real.arccos nearPole.z < Real.pi / 255 := by
    apply arccos_lt_step <;> (unfold nearPole; norm_num)
  have h2 : Real.arccos nearPole.z / Real.pi < 1 / 255 := by
    rw [div_lt_iff₀ hpi]
    linarith
  linarith

theorem phiValue_nearPole : PolarNormal.phiValue nearPole < 1 := by
  unfold PolarNormal.phiValue atan2
  have hpi := Real.pi_pos
  set w : ℂ := ⟨nearPole.x, nearPole.y⟩ with hw
  have hre : w.re = -(1000 / 500001) := rfl
  have him : w.im = -(1 / 500001) := rfl
  have habs : 1000 / 500001 ≤ Complex.abs w := by
    have := Complex.abs_re_le_abs w
    rw [hre, abs_neg, abs_of_pos (by norm_num)] at this
    exact this
  have hs0 : 0 ≤ (-w).im / Complex.abs w := by
    apply div_nonneg _ (by linarith)
    rw [Complex.neg_im, him]; norm_num
  have hs1 : (-w).im / Complex.abs w ≤ 1 / 1000 := by
    rw [Complex.neg_im, him, div_le_iff₀ (by linarith)]
    linarith
  have harg : Complex.arg w = Real.arcsin ((-w).im / Complex.abs w) - Real.pi :=
    Complex.arg_of_re_neg_of_im_neg (by rw [hre]; norm_num) (by rw [him]; norm_num)
  have hsin : 2 / 127.5 ≤ Real.sin (Real.pi / 127.5) := by
    have := Real.mul_le_sin (x := Real.pi / 127.5) (by positivity)
      (by rw [div_le_div_iff₀ (by norm_num) (by norm_num)]; linarith)
    have e : 2 / Real.pi * (Real.pi / 127.5) = 2 / 127.5 := by
      field_simp
    rwa [e] at this
  have hasin : Real.arcsin ((-w).im / Complex.abs w) < Real.pi / 127.5 := by
    rw [Real.arcsin_lt_iff_lt_sin ⟨by linarith, by linarith⟩]
    · have : (1 : ℝ) / 1000 < 2 / 127.5 := by norm_num
      linarith
    · constructor
      · have : (0 : ℝ) ≤ Real.pi / 127.5 := by positivity
        linarith
      · rw [div_le_div_iff₀ (by norm_num) (by norm_num)]; linarith
  rw [harg]
  have e : (Real.arcsin ((-w).im / Complex.abs w) - Real.pi) / Real.pi
      = Real.arcsin ((-w).im / Complex.abs w) / Real.pi - 1 := by
    field_simp
  rw [e]
  have h2 : Real.arcsin ((-w).im / Complex.abs w) / Real.pi < 1 / 127.5 := by
    rw [div_lt_iff₀ hpi]
    have e2 : (1 : ℝ) / 127.5 * Real.pi = Real.pi / 127.5 := by ring
    rw [e2]
    exact hasin
  have h3 : (127.5 : ℝ) * (1 / 127.5) = 1 := by norm_num
  nlinarith

theorem negY_unit : IsUnit3 negY := by
  unfold IsUnit3 negY
  norm_num

theorem thetaValue_negY : PolarNormal.thetaValue negY = 127.5 := by
  unfold PolarNormal.thetaValue negY
  simp only [Real.arccos_zero]
  have hpi := Real.pi_ne_zero
  field_simp
  ring

theorem phiValue_negY : PolarNormal.phiValue negY = 63.75 := by
  unfold PolarNormal.phiValue atan2 negY
  have e : (⟨0, -1⟩ : ℂ) = -Complex.I := by
    apply Complex.ext <;> simp
  simp only
  rw [e, Complex.arg_neg_I]
  have hpi := Real.pi_ne_zero
  field_simp
  ring

theorem floor_63_75 : ⌊(63.75 : ℝ)⌋₊ = 63 := by
  rw [Nat.floor_eq_iff (by norm_num)]
  norm_num

theorem ofVector3_negY : PolarNormal.ofVector3 negY = ⟨127, 63⟩ := by
  rw [ofVector3_eq, Normalize_of_unit negY_unit, thetaValue_negY, phiValue_negY, floor_127_5,
    floor_63_75]
  decide

/-! ## Normal codec: round trip -/

/-- A unit vector in spherical coordinates, with the inclination and azimuth that the
constructor computes. -/
theorem unit_spherical (v : Vector3) (hv : IsUnit3 v) :
    v.x = Real.sin (Real.arccos v.z) * Real.cos (atan2 v.y v.x)
      ∧ v.y = Real.sin (Real.arccos v.z) * Real.sin (atan2 v.y v.x)
      ∧ v.z = Real.cos (Real.arccos v.z) := by
  unfold IsUnit3 at hv
  have hz1 : -1 ≤ v.z := by nlinarith [sq_nonneg v.x, sq_nonneg v.y]
  have hz2 : v.z ≤ 1 := by nlinarith [sq_nonneg v.x, sq_nonneg v.y]
  have hsin : Real.sin (Real.arccos v.z) = Complex.abs ⟨v.x, v.y⟩ := by
    rw [Real.sin_arccos, Complex.abs_apply, Complex.normSq_mk]
    congr 1
    linarith
  refine ⟨?_, ?_, (Real.cos_arccos hz1 hz2).symm⟩
  · unfold atan2
    rw [hsin]
    by_cases hw : (⟨v.x, v.y⟩ : ℂ) = 0
    · have hx : v.x = 0 := congrArg Complex.re hw
      rw [hw, hx]
      simp
    · rw [Complex.cos_arg hw]
      have habs : Complex.abs ⟨v.x, v.y⟩ ≠ 0 := by
        simpa using hw
      field_simp
  · unfold atan2
    rw [hsin, Complex.sin_arg]
    by_cases hw : (⟨v.x, v.y⟩ : ℂ) = 0
    · have hy : v.y = 0 := congrArg Complex.im hw
      rw [hw, hy]
      simp
    · have habs : Complex.abs ⟨v.x, v.y⟩ ≠ 0 := by
        simpa using hw
      field_simp

/-- The scalar product of two directions given by inclination and azimuth. -/
theorem dot_spherical (a b t p : ℝ) :
    Real.sin a * Real.cos b * (Real.sin t * Real.cos p)
        + Real.sin a * Real.sin b * (Real.sin t * Real.sin p) + Real.cos a * Real.cos t
      = Real.cos (a - t) - Real.sin a * Real.sin t * (1 - Real.cos (b - p)) := by
  rw [Real.cos_sub, Real.cos_sub]
  ring

theorem one_sub_cos_le_sin {x : ℝ} (h0 : 0 ≤ x) (h1 : x ≤ Real.pi / 2) :
    1 - Real.cos x ≤ Real.sin x := by
  have hpi := Real.pi_pos
  have s : 0 ≤ Real.sin x := Real.sin_nonneg_of_nonneg_of_le_pi h0 (by linarith)
  have c : 0 ≤ Real.cos x := Real.cos_nonneg_of_neg_pi_div_two_le_of_le (by linarith) h1
  have h := Real.sin_sq_add_cos_sq x
  nlinarith [mul_nonneg s c]

theorem cos_add_le (x y : ℝ) (hx0 : 0 ≤ x) (hx1 : x ≤ Real.pi / 2) (hy0 : 0 ≤ y)
    (hy1 : y ≤ Real.pi / 2) :
    Real.cos (x + y) ≤ Real.cos x + Real.cos y - 1 := by
  rw [Real.cos_add]
  have ax := one_sub_cos_le_sin hx0 hx1
  have ay := one_sub_cos_le_sin hy0 hy1
  have bx : 0 ≤ 1 - Real.cos x := by linarith [Real.cos_le_one x]
  have bY : 0 ≤ 1 - Real.cos y := by linarith [Real.cos_le_one y]
  have hpi := Real.pi_pos
  have sx : 0 ≤ Real.sin x := by linarith
  have h := mul_le_mul ax ay bY sx
  nlinarith

/-- Truncation of the inclination loses less than one step `π / 255`. -/
theorem theta_step (a : ℝ) (h0 : 0 ≤ a) :
    Real.pi * ((⌊255 * (a / Real.pi)⌋₊ : ℝ) / 255) ≤ a
      ∧ a < Real.pi * ((⌊255 * (a / Real.pi)⌋₊ : ℝ) / 255) + Real.pi / 255 := by
  have hpi := Real.pi_pos
  have hT : 0 ≤ 255 * (a / Real.pi) := by positivity
  have h1 := Nat.floor_le hT
  have h2 := Nat.lt_floor_add_one (255 * (a / Real.pi))
  have e : a = Real.pi * (255 * (a / Real.pi) / 255) := by
    field_simp
    ring
  constructor
  · calc Real.pi * ((⌊255 * (a / Real.pi)⌋₊ : ℝ) / 255)
        ≤ Real.pi * (255 * (a / Real.pi) / 255) := by
          apply mul_le_mul_of_nonneg_left _ hpi.le
          linarith
      _ = a := e.symm
  · calc a = Real.pi * (255 * (a / Real.pi) / 255) := e
      _ < Real.pi * (((⌊255 * (a / Real.pi)⌋₊ : ℝ) + 1) / 255) := by
          apply mul_lt_mul_of_pos_left _ hpi
          linarith
      _ = Real.pi * ((⌊255 * (a / Real.pi)⌋₊ : ℝ) / 255) + Real.pi / 255 := by ring

/-- Truncation of the azimuth loses less than one step `2π / 255`. -/
theorem phi_step (b : ℝ) (h0 : -Real.pi < b) :
    Real.pi * ((⌊127.5 + 127.5 * (b / Real.pi)⌋₊ : ℝ) / 127.5 - 1) ≤ b
      ∧ b < Real.pi * ((⌊127.5 + 127.5 * (b / Real.pi)⌋₊ : ℝ) / 127.5 - 1)
            + 2 * (Real.pi / 255) := by
  have hpi := Real.pi_pos
  have hb : -1 < b / Real.pi := by
    rw [lt_div_iff₀ hpi]; linarith
  have hP : 0 ≤ 127.5 + 127.5 * (b / Real.pi) := by linarith
  have h1 := Nat.floor_le hP
  have h2 := Nat.lt_floor_add_one (127.5 + 127.5 * (b / Real.pi))
  have e : b = Real.pi * ((127.5 + 127.5 * (b / Real.pi)) / 127.5 - 1) := by
    field_simp
    ring
  constructor
  · calc Real.pi * ((⌊127.5 + 127.5 * (b / Real.pi)⌋₊ : ℝ) / 127.5 - 1)
        ≤ Real.pi * ((127.5 + 127.5 * (b / Real.pi)) / 127.5 - 1) := by
          apply mul_le_mul_of_nonneg_left _ hpi.le
          have := div_le_div_of_nonneg_right h1 (by norm_num : (0 : ℝ) ≤ 127.5)
          linarith
      _ = b := e.symm
  · calc b = Real.pi * ((127.5 + 127.5 * (b / Real.pi)) / 127.5 - 1) := e
      _ < Real.pi * (((⌊127.5 + 127.5 * (b / Real.pi)⌋₊ : ℝ) + 1) / 127.5 - 1) := by
          apply mul_lt_mul_of_pos_left _ hpi
          have := div_lt_div_of_pos_right h2 (by norm_num : (0 : ℝ) < 127.5)
          linarith
      _ = Real.pi * ((⌊127.5 + 127.5 * (b / Real.pi)⌋₊ : ℝ) / 127.5 - 1)
            + 2 * (Real.pi / 255) := by ring

/-- Lower and upper bound of the scalar product of a direction `(a, b)` with a direction
`(t, p)` that lies less than one step below it in both angles. -/
theorem dot_bound (a b t p : ℝ) (ha1 : a ≤ Real.pi) (ht0 : 0 ≤ t) (hta : t ≤ a)
    (hat : a < t + Real.pi / 255)
    (hcase : Real.sin t = 0 ∨ (p ≤ b ∧ b < p + 2 * (Real.pi / 255))) :
    Real.cos (3 * (Real.pi / 255))
        ≤ Real.cos (a - t) - Real.sin a * Real.sin t * (1 - Real.cos (b - p))
      ∧ Real.cos (a - t) - Real.sin a * Real.sin t * (1 - Real.cos (b - p)) ≤ 1 := by
  have hpi := Real.pi_pos
  have sa : 0 ≤ Real.sin a := Real.sin_nonneg_of_nonneg_of_le_pi (by linarith) ha1
  have st : 0 ≤ Real.sin t := Real.sin_nonneg_of_nonneg_of_le_pi ht0 (by linarith)
  have sa1 := Real.sin_le_one a
  have st1 := Real.sin_le_one t
  have hS0 : 0 ≤ Real.sin a * Real.sin t := mul_nonneg sa st
  have hS1 : Real.sin a * Real.sin t ≤ 1 := by nlinarith
  have hc0 : 0 ≤ 1 - Real.cos (b - p) := by linarith [Real.cos_le_one (b - p)]
  have hx1 := Real.cos_le_one (a - t)
  constructor
  · rcases hcase with h | ⟨hpb, hbp⟩
    · rw [h, mul_zero, zero_mul, sub_zero]
      exact Real.cos_le_cos_of_nonneg_of_le_pi (by linarith) (by linarith) (by linarith)
    · have h1 : Real.cos (a - t + (b - p)) ≤ Real.cos (a - t) + Real.cos (b - p) - 1 :=
        cos_add_le _ _ (by linarith) (by linarith) (by linarith) (by linarith)
      have h2 : Real.cos (3 * (Real.pi / 255)) ≤ Real.cos (a - t + (b - p)) :=
        Real.cos_le_cos_of_nonneg_of_le_pi (by linarith) (by linarith) (by linarith)
      nlinarith
  · nlinarith

/-- The scalar product of a unit vector with the decoding of its code. -/
theorem round_trip_dot (v : Vector3) (hv : IsUnit3 v) :
    Real.cos (3 * (Real.pi / 255)) ≤ Vector3.dot v (PolarNormal.ofVector3 v).ToVector3
      ∧ Vector3.dot v (PolarNormal.ofVector3 v).ToVector3 ≤ 1 := by
  have hpi := Real.pi_pos
  obtain ⟨hx, hy, hz⟩ := unit_spherical v hv
  have ha0 := Real.arccos_nonneg v.z
  have ha1 := Real.arccos_le_pi v.z
  have hb0 : -Real.pi < atan2 v.y v.x := Complex.neg_pi_lt_arg _
  obtain ⟨ht1, ht2⟩ := theta_step _ ha0
  obtain ⟨hp1, hp2⟩ := phi_step _ hb0
  have hcode := ofVector3_eq v
  rw [Normalize_of_unit hv] at hcode
  unfold PolarNormal.thetaValue PolarNormal.phiValue at hcode
  have hne : ¬ ((PolarNormal.ofVector3 v).theta = 0 ∧ (PolarNormal.ofVector3 v).phi = 0) := by
    intro hc
    apply ofVector3_ne v
    rcases hn : PolarNormal.ofVector3 v with ⟨c, d⟩
    rw [hn] at hc
    simp only at hc
    rw [hc.1, hc.2]
  have hnt : (PolarNormal.ofVector3 v).theta = ⌊255 * (Real.arccos v.z / Real.pi)⌋₊ := by
    rw [hcode]
    exact avoidEmpty_theta _ _
  rw [ToVector3_of_ne _ hne, hnt]
  have hdot : ∀ t p : ℝ,
      Vector3.dot v ⟨Real.sin t * Real.cos p, Real.sin t * Real.sin p, Real.cos t⟩
        = Real.cos (Real.arccos v.z - t)
          - Real.sin (Real.arccos v.z) * Real.sin t * (1 - Real.cos (atan2 v.y v.x - p)) := by
    intro t p
    rw [← dot_spherical]
    unfold Vector3.dot
    simp only
    rw [← hx, ← hy, ← hz]
  rw [hdot]
  apply dot_bound _ _ _ _ ha1 (by positivity) ht1 ht2
  by_cases h0 : ⌊255 * (Real.arccos v.z / Real.pi)⌋₊ = 0
  · left
    rw [h0]
    simp
  · right
    have hnp : (PolarNormal.ofVector3 v).phi
        = ⌊127.5 + 127.5 * (atan2 v.y v.x / Real.pi)⌋₊ := by
      rw [hcode]
      unfold PolarNormal.avoidEmpty
      rw [if_neg (fun hc => h0 hc.1)]
    rw [hnp]
    exact ⟨hp1, hp2⟩

/-! ## Normal codec: the properties -/

/-- C4. Sentinel decode: the code `(theta = 0, phi = 0)` decodes to the zero vector, the
default-constructed `PolarNormal` is exactly that code, and so a default-constructed
normal decodes to the zero vector. -/
theorem PolarNormal_sentinel_decode :
    PolarNormal.ToVector3 ⟨0, 0⟩ = Vector3.zero
      ∧ PolarNormal.default = ⟨0, 0⟩
      ∧ PolarNormal.default.ToVector3 = Vector3.zero := by
  refine ⟨?_, rfl, ?_⟩
  · unfold PolarNormal.ToVector3
    simp
  · unfold PolarNormal.ToVector3 PolarNormal.default
    simp

/-- C5. Decode yields a unit vector: for every code `(theta, phi)` in `0..255 × 0..255`
other than `(0, 0)`, `ToVector3` returns `(sin t · cos p, sin t · sin p, cos t)` with
`t = π · theta / 255` and `p = π · (phi / 127.5 − 1)`, and that vector has Euclidean
length exactly one. -/
theorem PolarNormal_decode_unit (theta phi : ℕ) (_ht : theta ≤ 255) (_hp : phi ≤ 255)
    (hne : ¬ (theta = 0 ∧ phi = 0)) :
    PolarNormal.ToVector3 ⟨theta, phi⟩ =
        ⟨Real.sin (Real.pi * ((theta : ℝ) / 255))
            * Real.cos (Real.pi * (((phi : ℝ) / 127.5) - 1)),
          Real.sin (Real.pi * ((theta : ℝ) / 255))
            * Real.sin (Real.pi * (((phi : ℝ) / 127.5) - 1)),
          Real.cos (Real.pi * ((theta : ℝ) / 255))⟩
      ∧ (PolarNormal.ToVector3 ⟨theta, phi⟩).Length = 1 := by
  have h := ToVector3_of_ne ⟨theta, phi⟩ hne
  refine ⟨h, ?_⟩
  rw [h]
  exact Length_of_unit (spherical_unit _ _)

/-- Instance of C5 at the code `(127, 63)`. -/
theorem PolarNormal_decode_unit_witness :
    (127 ≤ 255 ∧ 63 ≤ 255 ∧ ¬ (127 = 0 ∧ 63 = 0))
      ∧ (PolarNormal.ToVector3 ⟨127, 63⟩).Length = 1 :=
  ⟨by decide, (PolarNormal_decode_unit 127 63 (by decide) (by decide) (by decide)).2⟩

/-- C6. Azimuth is irrelevant at `theta = 0`: for every `phi` in `1..255` the code
`(0, phi)` decodes to `(0, 0, 1)`, so the code `(0, 128)` stored by the encoder decodes
to the same direction as any other `(0, phi)`. -/
theorem PolarNormal_azimuth_irrelevant_at_pole (phi : ℕ) (h1 : 1 ≤ phi) (_h2 : phi ≤ 255) :
    PolarNormal.ToVector3 ⟨0, phi⟩ = ⟨0, 0, 1⟩
      ∧ PolarNormal.ToVector3 (PolarNormal.avoidEmpty 0 0) = PolarNormal.ToVector3 ⟨0, phi⟩ := by
  have key : ∀ q : ℕ, 1 ≤ q → PolarNormal.ToVector3 ⟨0, q⟩ = ⟨0, 0, 1⟩ := by
    intro q hq
    rw [ToVector3_of_ne ⟨0, q⟩ (by simp; omega)]
    simp
  refine ⟨key phi h1, ?_⟩
  have e : PolarNormal.avoidEmpty 0 0 = ⟨0, 128⟩ := by decide
  rw [e, key phi h1, key 128 (by decide)]

/-- Instance of C6 at `phi = 1`. -/
theorem PolarNormal_azimuth_irrelevant_at_pole_witness :
    (1 ≤ 1 ∧ 1 ≤ 255) ∧ PolarNormal.ToVector3 ⟨0, 1⟩ = ⟨0, 0, 1⟩ :=
  ⟨by decide, (PolarNormal_azimuth_irrelevant_at_pole 1 (by decide) (by decide)).1⟩

/-- C3. The reserved pair is never produced by encoding: for every input vector, unit or
not, `PolarNormal(v)` is never `(theta = 0, phi = 0)`; whenever the computed pair is
`(0, 0)` the stored pair is `(0, 128)`. -/
theorem PolarNormal_encode_never_reserved (v : Vector3) :
    PolarNormal.ofVector3 v ≠ ⟨0, 0⟩
      ∧ (truncToByte (PolarNormal.thetaValue v.Normalize) = 0 →
          truncToByte (PolarNormal.phiValue v.Normalize) = 0 →
          PolarNormal.ofVector3 v = ⟨0, 128⟩) := by
  refine ⟨ofVector3_ne v, ?_⟩
  intro h1 h2
  unfold PolarNormal.ofVector3
  simp only
  rw [h1, h2]
  decide

/-- Instance of C3 at a unit vector whose computed pair is `(0, 0)`. -/
theorem PolarNormal_encode_never_reserved_witness :
    (truncToByte (PolarNormal.thetaValue nearPole.Normalize) = 0
        ∧ truncToByte (PolarNormal.phiValue nearPole.Normalize) = 0)
      ∧ PolarNormal.ofVector3 nearPole = ⟨0, 128⟩ := by
  have ht : truncToByte (PolarNormal.thetaValue nearPole.Normalize) = 0 := by
    rw [Normalize_of_unit nearPole_unit,
      truncToByte_eq_floor (thetaValue_range _).1 (by linarith [(thetaValue_range nearPole).2])]
    exact Nat.floor_eq_zero.mpr thetaValue_nearPole
  have hp : truncToByte (PolarNormal.phiValue nearPole.Normalize) = 0 := by
    rw [Normalize_of_unit nearPole_unit,
      truncToByte_eq_floor (phiValue_range _).1.le (by linarith [(phiValue_range nearPole).2])]
    exact Nat.floor_eq_zero.mpr phiValue_nearPole
  exact ⟨⟨ht, hp⟩, (PolarNormal_encode_never_reserved nearPole).2 ht hp⟩

/-- C2, as stated, fails at the unit vector `(0, -1, 0)`: the stored pair is `(127, 63)`,
while the two angle values `127.5` and `63.75` round to `128` and `64`. -/
theorem PolarNormal_encode_not_rounded :
    IsUnit3 negY
      ∧ PolarNormal.ofVector3 negY = ⟨127, 63⟩
      ∧ round (255 * (Real.arccos negY.z / Real.pi)) = 128
      ∧ round (127.5 + 127.5 * (atan2 negY.y negY.x / Real.pi)) = 64
      ∧ ((PolarNormal.ofVector3 negY).phi : ℤ)
          ≠ round (127.5 + 127.5 * (atan2 negY.y negY.x / Real.pi)) := by
  have ht : 255 * (Real.arccos negY.z / Real.pi) = 127.5 := thetaValue_negY
  have hp : 127.5 + 127.5 * (atan2 negY.y negY.x / Real.pi) = 63.75 := phiValue_negY
  have r1 : round (127.5 : ℝ) = 128 := by
    rw [round_eq, Int.floor_eq_iff]
    norm_num
  have r2 : round (63.75 : ℝ) = 64 := by
    rw [round_eq, Int.floor_eq_iff]
    norm_num
  rw [ht, hp, r1, r2, ofVector3_negY]
  exact ⟨negY_unit, rfl, rfl, rfl, by decide⟩

/-- C2, amended. Normal encode formula: for every unit vector `v`, `PolarNormal(v)` stores
`theta = ⌊255 · acos(v.z) / π⌋` and `phi = ⌊127.5 + 127.5 · atan2(v.y, v.x) / π⌋`, both
truncated to the integer below (not rounded to the nearest one), with the single
exception that `phi` is `128` when both computed values are `0`. -/
theorem PolarNormal_encode_truncates (v : Vector3) (hv : IsUnit3 v) :
    (PolarNormal.ofVector3 v).theta = ⌊255 * (Real.arccos v.z / Real.pi)⌋₊
      ∧ (PolarNormal.ofVector3 v).phi
          = if ⌊255 * (Real.arccos v.z / Real.pi)⌋₊ = 0
                ∧ ⌊127.5 + 127.5 * (atan2 v.y v.x / Real.pi)⌋₊ = 0
            then 128 else ⌊127.5 + 127.5 * (atan2 v.y v.x / Real.pi)⌋₊ := by
  rw [ofVector3_eq, Normalize_of_unit hv]
  unfold PolarNormal.avoidEmpty PolarNormal.thetaValue PolarNormal.phiValue
  split_ifs with h
  · exact ⟨rfl, rfl⟩
  · exact ⟨rfl, rfl⟩

/-- Instance of the amended C2 at the unit vector `(0, -1, 0)`. -/
theorem PolarNormal_encode_truncates_witness :
    IsUnit3 negY
      ∧ (PolarNormal.ofVector3 negY).theta = ⌊255 * (Real.arccos negY.z / Real.pi)⌋₊ :=
  ⟨negY_unit, (PolarNormal_encode_truncates negY negY_unit).1⟩

/-- C7, as stated, fails: the zero vector is encoded as `(127, 127)` and that code does
not decode to the zero vector. -/
theorem PolarNormal_zero_not_round_trip :
    PolarNormal.ofVector3 Vector3.zero = ⟨127, 127⟩
      ∧ (PolarNormal.ofVector3 Vector3.zero).ToVector3 ≠ Vector3.zero := by
  refine ⟨ofVector3_zero, ?_⟩
  intro h
  have hlen : (PolarNormal.ofVector3 Vector3.zero).ToVector3.Length = 1 := by
    rw [ofVector3_zero, ToVector3_of_ne ⟨127, 127⟩ (by decide)]
    exact Length_of_unit (spherical_unit _ _)
  rw [h] at hlen
  unfold Vector3.Length Vector3.zero at hlen
  norm_num at hlen

/-- C7, amended. The zero vector round-trips only through the default constructor:
`PolarNormal().ToVector3()` is the zero vector, while for every vector `v`, the zero
vector included, `PolarNormal(v)` is not the reserved code and
`PolarNormal(v).ToVector3()` has length one. -/
theorem PolarNormal_zero_only_by_default (v : Vector3) :
    PolarNormal.default.ToVector3 = Vector3.zero
      ∧ PolarNormal.ofVector3 v ≠ PolarNormal.default
      ∧ (PolarNormal.ofVector3 v).ToVector3.Length = 1 := by
  refine ⟨?_, ofVector3_ne v, ?_⟩
  · unfold PolarNormal.ToVector3 PolarNormal.default
    simp
  · have hne : ¬ ((PolarNormal.ofVector3 v).theta = 0 ∧ (PolarNormal.ofVector3 v).phi = 0) := by
      intro hc
      apply ofVector3_ne v
      rcases hv : PolarNormal.ofVector3 v with ⟨a, b⟩
      rw [hv] at hc
      simp only at hc
      rw [hc.1, hc.2]
    rw [ToVector3_of_ne _ hne]
    exact Length_of_unit (spherical_unit _ _)

/-- C1, as stated, fails at the unit vector `(0, -1, 0)`, which is not a pole: the angle
between it and the decoding of its code exceeds `(π / 255) · √2`. -/
theorem PolarNormal_round_trip_exceeds :
    IsUnit3 negY ∧ negY ≠ ⟨0, 0, 1⟩ ∧ negY ≠ ⟨0, 0, -1⟩
      ∧ Real.pi / 255 * Real.sqrt 2
          < Vector3.angle negY (PolarNormal.ofVector3 negY).ToVector3 := by
  have hpi := Real.pi_pos
  refine ⟨negY_unit, ?_, ?_, ?_⟩
  · intro h
    have := congrArg Vector3.y h
    unfold negY at this
    norm_num at this
  · intro h
    have := congrArg Vector3.y h
    unfold negY at this
    norm_num at this
  · rw [ofVector3_negY, ToVector3_of_ne ⟨127, 63⟩ (by decide)]
    unfold Vector3.angle
    rw [Length_of_unit negY_unit, Length_of_unit (spherical_unit _ _)]
    unfold Vector3.dot negY
    simp only
    have hsq : Real.sqrt 2 < 3 / 2 := by
      rw [Real.sqrt_lt' (by norm_num)]
      norm_num
    have hp : Real.sin (Real.pi * (((63 : ℕ) : ℝ) / 127.5 - 1)) = -Real.cos (Real.pi / 170) := by
      have e : Real.pi * (((63 : ℕ) : ℝ) / 127.5 - 1) = -(Real.pi / 170 + Real.pi / 2) := by
        norm_num
        ring
      rw [e, Real.sin_neg, Real.sin_add_pi_div_two]
    have hc0 : 0 ≤ Real.cos (Real.pi / 170) :=
      Real.cos_nonneg_of_neg_pi_div_two_le_of_le (by linarith) (by linarith)
    have hs1 := Real.sin_le_one (Real.pi * (((127 : ℕ) : ℝ) / 255))
    have hlt : Real.cos (Real.pi / 170) < Real.cos (Real.pi / 255 * Real.sqrt 2) := by
      apply Real.cos_lt_cos_of_nonneg_of_le_pi (by positivity)
      · linarith
      · have : Real.pi / 255 * Real.sqrt 2 < Real.pi / 255 * (3 / 2) :=
          mul_lt_mul_of_pos_left hsq (by positivity)
        have e : Real.pi / 255 * (3 / 2) = Real.pi / 170 := by ring
        linarith
    rw [hp]
    set d : ℝ := (0 * (Real.sin (Real.pi * (((127 : ℕ) : ℝ) / 255))
        * Real.cos (Real.pi * (((63 : ℕ) : ℝ) / 127.5 - 1)))
      + -1 * (Real.sin (Real.pi * (((127 : ℕ) : ℝ) / 255)) * -Real.cos (Real.pi / 170))
      + 0 * Real.cos (Real.pi * (((127 : ℕ) : ℝ) / 255))) / (1 * 1) with hd
    have hd' : d = Real.sin (Real.pi * (((127 : ℕ) : ℝ) / 255)) * Real.cos (Real.pi / 170) := by
      rw [hd]
      ring
    have hs0 : 0 ≤ Real.sin (Real.pi * (((127 : ℕ) : ℝ) / 255)) := by
      apply Real.sin_nonneg_of_nonneg_of_le_pi (by positivity)
      have : (((127 : ℕ) : ℝ) / 255) ≤ 1 := by norm_num
      nlinarith
    have hdle : d ≤ Real.cos (Real.pi / 170) := by
      rw [hd']
      nlinarith
    have hd0 : 0 ≤ d := by
      rw [hd']
      positivity
    by_contra hcon
    push_neg at hcon
    have h1 : Real.cos (Real.pi / 255 * Real.sqrt 2) ≤ Real.cos (Real.arccos d) :=
      Real.cos_le_cos_of_nonneg_of_le_pi (Real.arccos_nonneg d)
        (by
          have : Real.pi / 255 * Real.sqrt 2 < Real.pi / 255 * (3 / 2) :=
            mul_lt_mul_of_pos_left hsq (by positivity)
          nlinarith)
        hcon
    rw [Real.cos_arccos (by linarith) (by linarith [Real.cos_le_one (Real.pi / 170)])] at h1
    linarith

/-- C1, amended. Normal codec round trip: for every unit vector `v` the angle between `v`
and `PolarNormal(v).ToVector3()` is at most `3 · (π / 255)`: both angles are truncated,
which loses up to one step `π / 255` of inclination and one step `2π / 255` of
azimuth. -/
theorem PolarNormal_round_trip_bound (v : Vector3) (hv : IsUnit3 v) :
    Vector3.angle v (PolarNormal.ofVector3 v).ToVector3 ≤ 3 * (Real.pi / 255) := by
  have hpi := Real.pi_pos
  obtain ⟨hlo, hhi⟩ := round_trip_dot v hv
  have hne : ¬ ((PolarNormal.ofVector3 v).theta = 0 ∧ (PolarNormal.ofVector3 v).phi = 0) := by
    intro hc
    apply ofVector3_ne v
    rcases hn : PolarNormal.ofVector3 v with ⟨c, d⟩
    rw [hn] at hc
    simp only at hc
    rw [hc.1, hc.2]
  have hlen : (PolarNormal.ofVector3 v).ToVector3.Length = 1 := by
    rw [ToVector3_of_ne _ hne]
    exact Length_of_unit (spherical_unit _ _)
  unfold Vector3.angle
  rw [Length_of_unit hv, hlen, mul_one, div_one]
  by_contra hcon
  push_neg at hcon
  have h1 := Real.cos_lt_cos_of_nonneg_of_le_pi (by positivity) (Real.arccos_le_pi _) hcon
  rw [Real.cos_arccos (by linarith [Real.neg_one_le_cos (3 * (Real.pi / 255))]) hhi] at h1
  linarith

/-- Instance of the amended C1 at the unit vector `(0, -1, 0)`. -/
theorem PolarNormal_round_trip_bound_witness :
    IsUnit3 negY
      ∧ Vector3.angle negY (PolarNormal.ofVector3 negY).ToVector3 ≤ 3 * (Real.pi / 255) :=
  ⟨negY_unit, PolarNormal_round_trip_bound negY negY_unit⟩

/-! ## Render record layout -/

/-- C15. Render record layout: `Shader::octreeLayout` lists exactly 20 elements in the
order `POSITION` (3 × 32-bit float), `NORMAL 0..5` (two 8-bit unsigned each),
`COLOR 0..5` (one 16-bit unsigned each), `WEIGHT 0..5` (one 8-bit unsigned each), `SIZE`
(one 32-bit float); the sequence of shapes is that of the members of `OctreeNodeVertex`
in order, and the three octree shaders are created with the element count 20, the length
of the list. -/
theorem octreeLayout_matches_OctreeNodeVertex :
    Shader.octreeLayout.length = 20
      ∧ Shader.octreeLayout.map (fun e => (e.semanticName, e.semanticIndex, e.format.shape))
          = expectedOctreeLayout
      ∧ Shader.octreeLayout.map (fun e => e.format.shape)
          = Member.fields OctreeNodeVertex.members
      ∧ (InitializeScene.shaderCreateCalls.filter
            (fun c => c.1 = LayoutName.octreeLayout)).map Prod.snd
          = List.replicate 3 Shader.octreeLayout.length := by
  refine ⟨by decide, by decide, by decide, by decide⟩

/-! ## OctreeRenderer: the properties -/

theorem Update_level (r : OctreeRenderer) (f : FrameInput) :
    (r.Update f).level = OctreeRenderer.selectLevel r f := rfl

theorem Update_splatSize (r : OctreeRenderer) (f : FrameInput) :
    (r.Update f).constantBufferData.splatSize = r.constantBufferData.splatSize := rfl

theorem Draw_splatSize (r : OctreeRenderer) (f : FrameInput) :
    (r.Draw f).constantBufferData.splatSize = r.constantBufferData.splatSize := by
  unfold OctreeRenderer.Draw
  split_ifs <;> rfl

/-- C16. Traversal mode selection: after the key handling, `Update` assigns to
`octreeVertices` the adaptive traversal `GetVertices(localCameraPosition, splatSize)`
exactly when `level < 0` and the fixed-level traversal `GetVerticesAtLevel(level)` exactly
when `level ≥ 0`; the fixed-level traversal is never invoked with a negative level. -/
theorem Update_traversal_mode (r : OctreeRenderer) (f : FrameInput) :
    (OctreeRenderer.traversalCall r f
          = TraversalCall.adaptive (OctreeRenderer.localCameraPosition f)
              r.constantBufferData.splatSize
        ↔ (r.Update f).level < 0)
      ∧ (OctreeRenderer.traversalCall r f = TraversalCall.fixedLevel (r.Update f).level
        ↔ 0 ≤ (r.Update f).level)
      ∧ (match OctreeRenderer.traversalCall r f with
          | TraversalCall.adaptive _ _ => (r.Update f).level < 0
          | TraversalCall.fixedLevel level => 0 ≤ level ∧ level = (r.Update f).level)
      ∧ (r.Update f).octreeVertices
          = if (r.Update f).level < 0 then
              r.octree.GetVertices (OctreeRenderer.localCameraPosition f)
                r.constantBufferData.splatSize
            else r.octree.GetVerticesAtLevel (r.Update f).level := by
  rw [Update_level]
  have hv : (r.Update f).octreeVertices
      = OctreeRenderer.runTraversal r.octree (OctreeRenderer.traversalCall r f) := rfl
  rw [hv]
  by_cases h : OctreeRenderer.selectLevel r f < 0
  · have hc : OctreeRenderer.traversalCall r f
        = TraversalCall.adaptive (OctreeRenderer.localCameraPosition f)
            r.constantBufferData.splatSize := if_pos h
    rw [hc, if_pos h]
    refine ⟨⟨fun _ => h, fun _ => rfl⟩, ⟨fun hf => ?_, fun hf => ?_⟩, h, rfl⟩
    · cases hf
    · omega
  · have hc : OctreeRenderer.traversalCall r f
        = TraversalCall.fixedLevel (OctreeRenderer.selectLevel r f) := if_neg h
    rw [hc, if_neg h]
    refine ⟨⟨fun hf => ?_, fun hf => absurd hf h⟩, ⟨fun _ => ?_, fun _ => rfl⟩, ⟨?_, rfl⟩, rfl⟩
    · cases hf
    · omega
    · omega

/-- The splat size after a sequence of calls is the one of the most recent
`SetSplatSize`, or the one the renderer started with. -/
theorem run_splatSize (calls : List RendererCall) (r : OctreeRenderer) :
    (r.run calls).constantBufferData.splatSize
      = (lastSplatSize calls).getD r.constantBufferData.splatSize := by
  induction calls generalizing r with
  | nil => rfl
  | cons c rest ih =>
    have hrun : r.run (c :: rest) = (r.step c).run rest := rfl
    rw [hrun, ih]
    cases c with
    | update f =>
      show (lastSplatSize rest).getD (r.Update f).constantBufferData.splatSize = _
      rw [Update_splatSize]
      rfl
    | draw f =>
      show (lastSplatSize rest).getD (r.Draw f).constantBufferData.splatSize = _
      rw [Draw_splatSize]
      rfl
    | setSplatSize s =>
      show (lastSplatSize rest).getD s
        = ((lastSplatSize rest).orElse (fun _ => some s)).getD _
      cases lastSplatSize rest <;> rfl

/-- C18. Adaptive threshold is explicit state with a positive default: after
construction and any sequence of `Update`, `Draw` and `SetSplatSize` calls, the splat
size that `Update` passes to `GetVertices` is `0.01` if `SetSplatSize` was never called
and otherwise the value given to the most recent `SetSplatSize` call; `Update` itself
never changes it. -/
theorem splatSize_is_last_set (octree : OctreeNode) (fovAngleY : ℝ) (level viewMode : ℤ)
    (world : Matrix4) (cameraPosition : Vector3) (calls : List RendererCall)
    (f : FrameInput) :
    ((OctreeRenderer.new octree fovAngleY level viewMode world cameraPosition).run
          calls).constantBufferData.splatSize
        = (lastSplatSize calls).getD 0.01
      ∧ (0 : ℝ) < 0.01
      ∧ OctreeRenderer.traversalCall
            ((OctreeRenderer.new octree fovAngleY level viewMode world cameraPosition).run
              calls) f
          = (if OctreeRenderer.selectLevel
                ((OctreeRenderer.new octree fovAngleY level viewMode world
                  cameraPosition).run calls) f < 0 then
              TraversalCall.adaptive (OctreeRenderer.localCameraPosition f)
                ((lastSplatSize calls).getD 0.01)
            else
              TraversalCall.fixedLevel
                (OctreeRenderer.selectLevel
                  ((OctreeRenderer.new octree fovAngleY level viewMode world
                    cameraPosition).run calls) f))
      ∧ (((OctreeRenderer.new octree fovAngleY level viewMode world cameraPosition).run
            calls).Update f).constantBufferData.splatSize
          = (lastSplatSize calls).getD 0.01 := by
  have h := run_splatSize calls
    (OctreeRenderer.new octree fovAngleY level viewMode world cameraPosition)
  have h0 : (OctreeRenderer.new octree fovAngleY level viewMode world
      cameraPosition).constantBufferData.splatSize = 0.01 := rfl
  rw [h0] at h
  refine ⟨h, by norm_num, ?_, ?_⟩
  · unfold OctreeRenderer.traversalCall
    rw [h]
  · rw [Update_splatSize, h]

/-- The fourth component of a row vector times an affine matrix is the fourth component
of the vector. -/
theorem vecMul_affine_w (u : Vector4) (W : Matrix4)
    (haff : ∀ i, W i 3 = if i = 3 then 1 else 0) : Matrix.vecMul u W 3 = u 3 := by
  unfold Matrix.vecMul Matrix.dotProduct
  rw [Fin.sum_univ_four]
  simp only [haff 0, haff 1, haff 2, haff 3]
  simp

/-- C17. Camera position is handed to the adaptive traversal in octree space: for every
invertible affine world matrix `W` and camera position `c`, the `localCameraPosition` of
`Update` is the point `(c, 1) · W⁻¹`, so transforming it back by `W` gives `c`. -/
theorem localCameraPosition_in_octree_space (f : FrameInput)
    (hdet : f.worldMatrix.det ≠ 0)
    (haff : ∀ i, f.worldMatrix i 3 = if i = 3 then 1 else 0) :
    (OctreeRenderer.localCameraPosition f).toPoint4
        = Vector4.Transform f.cameraPosition.toPoint4 f.worldMatrix.Invert
      ∧ Vector4.Transform (OctreeRenderer.localCameraPosition f).toPoint4 f.worldMatrix
          = f.cameraPosition.toPoint4 := by
  have hunit : IsUnit f.worldMatrix.det := isUnit_iff_ne_zero.mpr hdet
  set u : Vector4 := Vector4.Transform f.cameraPosition.toPoint4 f.worldMatrix.Invert with hu
  have hback : Vector4.Transform u f.worldMatrix = f.cameraPosition.toPoint4 := by
    rw [hu]
    unfold Vector4.Transform Matrix4.Invert
    rw [Matrix.vecMul_vecMul, Matrix.nonsing_inv_mul _ hunit, Matrix.vecMul_one]
  have hw : u 3 = 1 := by
    have h3 := vecMul_affine_w u f.worldMatrix haff
    have h4 : Matrix.vecMul u f.worldMatrix 3 = f.cameraPosition.toPoint4 3 :=
      congrFun hback 3
    rw [h3] at h4
    rw [h4]
    rfl
  have hlocal : (OctreeRenderer.localCameraPosition f).toPoint4 = u := by
    funext i
    fin_cases i
    · rfl
    · rfl
    · rfl
    · exact hw.symm
  exact ⟨hlocal, by rw [hlocal]; exact hback⟩

/-- Instance of C17 at a world matrix that scales by two and the camera at `(2, 4, 6)`. -/
theorem localCameraPosition_in_octree_space_witness :
    (sampleFrame.worldMatrix.det ≠ 0
        ∧ ∀ i, sampleFrame.worldMatrix i 3 = if i = 3 then 1 else 0)
      ∧ Vector4.Transform (OctreeRenderer.localCameraPosition sampleFrame).toPoint4
            sampleFrame.worldMatrix
          = sampleFrame.cameraPosition.toPoint4 := by
  have hdet : sampleFrame.worldMatrix.det ≠ 0 := by
    show (Matrix.diagonal ![(2 : ℝ), 2, 2, 1]).det ≠ 0
    rw [Matrix.det_diagonal, Fin.prod_univ_four]
    norm_num
  have haff : ∀ i, sampleFrame.worldMatrix i 3 = if i = 3 then 1 else 0 := by
    intro i
    show Matrix.diagonal ![(2 : ℝ), 2, 2, 1] i 3 = _
    fin_cases i <;> simp [Matrix.diagonal]
  exact ⟨⟨hdet, haff⟩, (localCameraPosition_in_octree_space sampleFrame hdet haff).2⟩

/-! ## Range of the encoded angles -/

/-- C20. Encoded angles never wrap the byte: for every unit vector `v` the real values
`255 · acos(v.z) / π` and `127.5 + 127.5 · atan2(v.y, v.x) / π` both lie in `[0, 255]`, so
the conversion to a byte in `PolarNormal(v)` is a plain truncation into `0..255`, and
`theta = 255` holds only at `v.z = -1`. -/
theorem PolarNormal_angles_in_byte_range (v : Vector3) (hv : IsUnit3 v) :
    (0 ≤ 255 * (Real.arccos v.z / Real.pi) ∧ 255 * (Real.arccos v.z / Real.pi) ≤ 255)
      ∧ (0 ≤ 127.5 + 127.5 * (atan2 v.y v.x / Real.pi)
          ∧ 127.5 + 127.5 * (atan2 v.y v.x / Real.pi) ≤ 255)
      ∧ truncToByte (255 * (Real.arccos v.z / Real.pi))
          = ⌊255 * (Real.arccos v.z / Real.pi)⌋₊
      ∧ truncToByte (127.5 + 127.5 * (atan2 v.y v.x / Real.pi))
          = ⌊127.5 + 127.5 * (atan2 v.y v.x / Real.pi)⌋₊
      ∧ (PolarNormal.ofVector3 v).theta ≤ 255
      ∧ (PolarNormal.ofVector3 v).phi ≤ 255
      ∧ ((PolarNormal.ofVector3 v).theta = 255 ↔ v.z = -1) := by
  have hpi := Real.pi_pos
  have ht : 0 ≤ PolarNormal.thetaValue v ∧ PolarNormal.thetaValue v ≤ 255 :=
    thetaValue_range v
  have hp : 0 < PolarNormal.phiValue v ∧ PolarNormal.phiValue v ≤ 255 := phiValue_range v
  have hcode := ofVector3_eq v
  rw [Normalize_of_unit hv] at hcode
  unfold PolarNormal.thetaValue at ht hcode
  unfold PolarNormal.phiValue at hp hcode
  have hfl_t : ⌊255 * (Real.arccos v.z / Real.pi)⌋₊ ≤ 255 := by
    have := Nat.floor_le_floor ht.2
    simpa using this
  have hfl_p : ⌊127.5 + 127.5 * (atan2 v.y v.x / Real.pi)⌋₊ ≤ 255 := by
    have := Nat.floor_le_floor hp.2
    simpa using this
  have htheta : (PolarNormal.ofVector3 v).theta = ⌊255 * (Real.arccos v.z / Real.pi)⌋₊ := by
    rw [hcode]
    exact avoidEmpty_theta _ _
  have hphi : (PolarNormal.ofVector3 v).phi ≤ 255 := by
    rw [hcode]
    unfold PolarNormal.avoidEmpty
    split_ifs
    · show 128 ≤ 255
      omega
    · exact hfl_p
  refine ⟨ht, ⟨hp.1.le, hp.2⟩, truncToByte_eq_floor ht.1 (by linarith),
    truncToByte_eq_floor hp.1.le (by linarith), by rw [htheta]; exact hfl_t, hphi, ?_⟩
  rw [htheta]
  unfold IsUnit3 at hv
  have hz1 : -1 ≤ v.z := by nlinarith [sq_nonneg v.x, sq_nonneg v.y]
  constructor
  · intro h255
    have h1 : (255 : ℝ) ≤ 255 * (Real.arccos v.z / Real.pi) := by
      have := Nat.floor_le ht.1
      rw [h255] at this
      exact_mod_cast this
    have h2 : 1 ≤ Real.arccos v.z / Real.pi := by linarith
    have h3 : Real.pi ≤ Real.arccos v.z := by
      rwa [le_div_iff₀ hpi, one_mul] at h2
    have h4 : Real.arccos v.z = Real.pi := le_antisymm (Real.arccos_le_pi _) h3
    have h5 := Real.arccos_eq_pi.mp h4
    linarith
  · intro hz
    rw [hz, Real.arccos_neg_one, div_self hpi.ne']
    norm_num

/-- Instance of C20 at the unit vector `(0, -1, 0)`. -/
theorem PolarNormal_angles_in_byte_range_witness :
    IsUnit3 negY ∧ (PolarNormal.ofVector3 negY).theta ≤ 255 :=
  ⟨negY_unit, (PolarNormal_angles_in_byte_range negY negY_unit).2.2.2.2.1⟩

/-! ## Octree construction: coverage -/

theorem finRange_eight : List.finRange 8 = [0, 1, 2, 3, 4, 5, 6, 7] := by decide

/-- Splitting a list into eight bins by any classifier loses and duplicates nothing. -/
theorem octant_partition {α : Type} (g : α → Fin 8) (vs : List α) :
    ((List.finRange 8).flatMap (fun i => vs.filter (fun v => g v = i))).Perm vs := by
  classical
  rw [List.perm_iff_count]
  intro a
  have hcount : ∀ i : Fin 8,
      List.count a (vs.filter (fun v => decide (g v = i)))
        = if g a = i then List.count a vs else 0 := by
    intro i
    split_ifs with h
    · exact List.count_filter (by simpa using h)
    · apply List.count_eq_zero_of_not_mem
      intro hm
      have := List.of_mem_filter hm
      simp at this
      exact h this
  rw [List.flatMap_def, List.count_flatten, List.map_map, finRange_eight]
  simp only [List.map, Function.comp, hcount, List.sum_cons, List.sum_nil]
  generalize g a = j
  fin_cases j <;> simp

theorem flatten_flatMap {α β : Type} (l : List α) (f : α → List (List β)) :
    (l.flatMap f).flatten = l.flatMap (fun i => (f i).flatten) := by
  induction l with
  | nil => rfl
  | cons a t ih => simp [List.flatMap_cons, ih]

theorem leafSubsets_node (vertices : List Vertex) (nodeVertex : OctreeNodeVertex)
    (children : Fin 8 → OctreeNode) :
    OctreeNode.leafSubsets (OctreeNode.node vertices nodeVertex children)
      = if (List.finRange 8).all (fun i => (children i).isNull) then [vertices]
        else (List.finRange 8).flatMap (fun i => OctreeNode.leafSubsets (children i)) := by
  rw [OctreeNode.leafSubsets]

theorem leafSubsets_childless (vertices : List Vertex) (nodeVertex : OctreeNodeVertex) :
    OctreeNode.leafSubsets (OctreeNode.node vertices nodeVertex (fun _ => OctreeNode.null))
      = [vertices] := by
  rw [leafSubsets_node, if_pos]
  simp [OctreeNode.isNull]

theorem build_zero (clusters : List Vertex → OctreeNode.ClusterSummary) (leafThreshold : ℕ)
    (vertices : List Vertex) (center : Vector3) (size : ℝ) :
    OctreeNode.build clusters leafThreshold 0 vertices center size
      = OctreeNode.node vertices (OctreeNode.makeNodeVertex clusters vertices center size)
          (fun _ => OctreeNode.null) := by
  rw [OctreeNode.build]

theorem build_succ (clusters : List Vertex → OctreeNode.ClusterSummary) (leafThreshold : ℕ)
    (remaining : ℕ) (vertices : List Vertex) (center : Vector3) (size : ℝ) :
    OctreeNode.build clusters leafThreshold (remaining + 1) vertices center size
      = if vertices.length < leafThreshold then
          OctreeNode.node vertices (OctreeNode.makeNodeVertex clusters vertices center size)
            (fun _ => OctreeNode.null)
        else
          OctreeNode.node vertices (OctreeNode.makeNodeVertex clusters vertices center size)
            (fun i =>
              if (vertices.filter (fun v => OctreeNode.octantOf center v = i)).isEmpty then
                OctreeNode.null
              else
                OctreeNode.build clusters leafThreshold remaining
                  (vertices.filter (fun v => OctreeNode.octantOf center v = i))
                  (OctreeNode.childCenter center size i) (size / 2)) := by
  rw [OctreeNode.build]

/-- The leaf subsets of a built tree, concatenated, are a rearrangement of the points the
tree was built from. -/
theorem leafSubsets_build (clusters : List Vertex → OctreeNode.ClusterSummary)
    (leafThreshold : ℕ) :
    ∀ (remaining : ℕ) (vertices : List Vertex) (center : Vector3) (size : ℝ),
      (OctreeNode.leafSubsets
        (OctreeNode.build clusters leafThreshold remaining vertices center size)).flatten.Perm
        vertices := by
  intro remaining
  induction remaining with
  | zero =>
    intro vertices center size
    rw [build_zero, leafSubsets_childless]
    simp
  | succ n ih =>
    intro vertices center size
    rw [build_succ]
    split_ifs with hsmall
    · rw [leafSubsets_childless]
      simp
    · rw [leafSubsets_node]
      split_ifs with hall
      · simp
      · rw [flatten_flatMap]
        refine List.Perm.trans ?_ (octant_partition (OctreeNode.octantOf center) vertices)
        apply List.Perm.flatMap_left
        intro i _
        split_ifs with hempty
        · rw [List.isEmpty_iff] at hempty
          rw [hempty]
          rfl
        · exact ih _ _ _

/-- In a tree built from a non-empty point list no leaf subset is empty. -/
theorem leafSubsets_build_nonempty (clusters : List Vertex → OctreeNode.ClusterSummary)
    (leafThreshold : ℕ) :
    ∀ (remaining : ℕ) (vertices : List Vertex) (center : Vector3) (size : ℝ),
      vertices ≠ [] →
      ∀ subset ∈ OctreeNode.leafSubsets
          (OctreeNode.build clusters leafThreshold remaining vertices center size),
        subset ≠ [] := by
  intro remaining
  induction remaining with
  | zero =>
    intro vertices center size hne subset hmem
    rw [build_zero, leafSubsets_childless, List.mem_singleton] at hmem
    rw [hmem]
    exact hne
  | succ n ih =>
    intro vertices center size hne subset hmem
    rw [build_succ] at hmem
    split_ifs at hmem with hsmall
    · rw [leafSubsets_childless, List.mem_singleton] at hmem
      rw [hmem]
      exact hne
    · rw [leafSubsets_node] at hmem
      split_ifs at hmem with hall
      · rw [List.mem_singleton] at hmem
        rw [hmem]
        exact hne
      · rw [List.mem_flatMap] at hmem
        obtain ⟨i, _, hi⟩ := hmem
        split_ifs at hi with hempty
        · simp [OctreeNode.leafSubsets] at hi
        · refine ih _ _ _ ?_ subset hi
          intro hnil
          apply hempty
          rw [hnil]
          rfl

/-- C11. Tree coverage: for every non-empty point list and every maximum depth, in the
tree built by the `OctreeNode` constructor the point subsets of the leaf nodes partition
the input: no leaf subset is empty, and the leaf subsets put one after the other are a
rearrangement of the input, so every input point belongs to exactly one leaf subset, none
is lost and none is duplicated. -/
theorem OctreeNode_leaf_subsets_partition
    (clusters : List Vertex → OctreeNode.ClusterSummary) (leafThreshold maxDepth : ℕ)
    (vertices : List Vertex) (center : Vector3) (size : ℝ) (hne : vertices ≠ []) :
    (OctreeNode.leafSubsets
        (OctreeNode.build clusters leafThreshold maxDepth vertices center size)).flatten.Perm
        vertices
      ∧ ∀ subset ∈ OctreeNode.leafSubsets
          (OctreeNode.build clusters leafThreshold maxDepth vertices center size),
        subset ≠ [] :=
  ⟨leafSubsets_build clusters leafThreshold maxDepth vertices center size,
    leafSubsets_build_nonempty clusters leafThreshold maxDepth vertices center size hne⟩

/-- Instance of C11 at two coincident points and maximum depth two. -/
theorem OctreeNode_leaf_subsets_partition_witness :
    [sampleVertex, sampleVertex] ≠ []
      ∧ (OctreeNode.leafSubsets
          (OctreeNode.build sampleClusters 1 2 [sampleVertex, sampleVertex] Vector3.zero
            1)).flatten.Perm [sampleVertex, sampleVertex] :=
  ⟨List.cons_ne_nil _ _,
    (OctreeNode_leaf_subsets_partition sampleClusters 1 2 [sampleVertex, sampleVertex]
      Vector3.zero 1 (List.cons_ne_nil _ _)).1⟩

/-! ## Cluster weights -/

/-- The six cluster sizes of an assignment add up to the number of points. -/
theorem sum_count_clusters (assignment : List (Fin 6)) :
    assignment.count 0 + assignment.count 1 + assignment.count 2 + assignment.count 3
        + assignment.count 4 + assignment.count 5
      = assignment.length := by
  induction assignment with
  | nil => rfl
  | cons a t ih =>
    simp only [List.count_cons, List.length_cons]
    fin_cases a <;> simp <;> omega

/-- Six weight bytes that are each within one step of the scaled fraction of their
cluster decode to fractions that add up to one within six steps. -/
theorem weights_sum_of_assignment (quantize : ℚ → ℕ) (hq : WithinOneStep quantize)
    (assignment : List (Fin 6)) (hne : assignment ≠ []) :
    |(∑ k : Fin 6, (clusterWeight quantize assignment k : ℚ) / 255) - 1| ≤ 6 / 255 := by
  have hn : (0 : ℚ) < (assignment.length : ℚ) := by
    have : 0 < assignment.length := List.length_pos.mpr hne
    exact_mod_cast this
  have hsum := sum_count_clusters assignment
  have hsumq : (assignment.count 0 : ℚ) / assignment.length
      + (assignment.count 1 : ℚ) / assignment.length
      + (assignment.count 2 : ℚ) / assignment.length
      + (assignment.count 3 : ℚ) / assignment.length
      + (assignment.count 4 : ℚ) / assignment.length
      + (assignment.count 5 : ℚ) / assignment.length = 1 := by
    rw [← add_div, ← add_div, ← add_div, ← add_div, ← add_div, div_eq_one_iff_eq hn.ne']
    exact_mod_cast hsum
  have hstep : ∀ k : Fin 6,
      |(clusterWeight quantize assignment k : ℚ)
          - 255 * ((assignment.count k : ℚ) / (assignment.length : ℚ))| ≤ 1 := by
    intro k
    apply hq
    · positivity
    · have hle : (assignment.count k : ℚ) ≤ (assignment.length : ℚ) := by
        exact_mod_cast List.count_le_length _ _
      have : (assignment.count k : ℚ) / (assignment.length : ℚ) ≤ 1 :=
        (div_le_one hn).mpr hle
      linarith
  have h0 := abs_le.mp (hstep 0)
  have h1 := abs_le.mp (hstep 1)
  have h2 := abs_le.mp (hstep 2)
  have h3 := abs_le.mp (hstep 3)
  have h4 := abs_le.mp (hstep 4)
  have h5 := abs_le.mp (hstep 5)
  rw [Fin.sum_univ_six, abs_le]
  constructor <;> linarith

/-- The record of a node with a non-empty subset has weights that add up to one within
six steps. -/
theorem makeNodeVertex_weights (quantize : ℚ → ℕ)
    (clusters : List Vertex → OctreeNode.ClusterSummary) (hq : WithinOneStep quantize)
    (hc : WeightsFromAssignment quantize clusters) (vertices : List Vertex)
    (center : Vector3) (size : ℝ) (hne : vertices ≠ []) :
    |(∑ k : Fin 6,
        ((OctreeNode.makeNodeVertex clusters vertices center size).weights k : ℚ) / 255) - 1|
      ≤ 6 / 255 := by
  obtain ⟨assignment, hlen, hw⟩ := hc vertices
  have hane : assignment ≠ [] := by
    intro h
    rw [h] at hlen
    exact hne (List.length_eq_zero.mp hlen.symm)
  have h := weights_sum_of_assignment quantize hq assignment hane
  have e : ∀ k, (OctreeNode.makeNodeVertex clusters vertices center size).weights k
      = clusterWeight quantize assignment k := hw
  simp only [e]
  exact h

theorem allNodes_childless (P : List Vertex → OctreeNodeVertex → Prop)
    (vertices : List Vertex) (nodeVertex : OctreeNodeVertex) (h : P vertices nodeVertex) :
    OctreeNode.AllNodes P (OctreeNode.node vertices nodeVertex (fun _ => OctreeNode.null)) := by
  rw [OctreeNode.AllNodes]
  refine ⟨h, fun _ => ?_⟩
  rw [OctreeNode.AllNodes]
  trivial

/-- A property that holds for the record of every non-empty point subset holds at every
node of a tree built from a non-empty point list. -/
theorem allNodes_build (clusters : List Vertex → OctreeNode.ClusterSummary)
    (leafThreshold : ℕ) (P : List Vertex → OctreeNodeVertex → Prop)
    (hP : ∀ (vertices : List Vertex) (center : Vector3) (size : ℝ), vertices ≠ [] →
      P vertices (OctreeNode.makeNodeVertex clusters vertices center size)) :
    ∀ (remaining : ℕ) (vertices : List Vertex) (center : Vector3) (size : ℝ),
      vertices ≠ [] →
      OctreeNode.AllNodes P
        (OctreeNode.build clusters leafThreshold remaining vertices center size) := by
  intro remaining
  induction remaining with
  | zero =>
    intro vertices center size hne
    rw [build_zero]
    exact allNodes_childless P _ _ (hP vertices center size hne)
  | succ n ih =>
    intro vertices center size hne
    rw [build_succ]
    split_ifs with hsmall
    · exact allNodes_childless P _ _ (hP vertices center size hne)
    · rw [OctreeNode.AllNodes]
      refine ⟨hP vertices center size hne, fun i => ?_⟩
      split_ifs with hempty
      · rw [OctreeNode.AllNodes]
        trivial
      · apply ih
        intro hnil
        apply hempty
        rw [hnil]
        rfl

/-- C12. Cluster weight sum: for every node of a built tree, the six weight bytes of its
`nodeVertex`, each decoded as `w / 255`, sum to one within six quantization steps of
`1 / 255`, one per cluster. The weight bytes are the fractions of the points of the node
assigned to the clusters, converted to a byte with an error of at most one step. -/
theorem cluster_weights_sum (quantize : ℚ → ℕ)
    (clusters : List Vertex → OctreeNode.ClusterSummary) (leafThreshold maxDepth : ℕ)
    (vertices : List Vertex) (center : Vector3) (size : ℝ) (hq : WithinOneStep quantize)
    (hc : WeightsFromAssignment quantize clusters) (hne : vertices ≠ []) :
    OctreeNode.AllNodes
      (fun _ nodeVertex => |(∑ k : Fin 6, (nodeVertex.weights k : ℚ) / 255) - 1| ≤ 6 / 255)
      (OctreeNode.build clusters leafThreshold maxDepth vertices center size) :=
  allNodes_build clusters leafThreshold _
    (fun vs c s h => makeNodeVertex_weights quantize clusters hq hc vs c s h)
    maxDepth vertices center size hne

theorem sampleQuantize_withinOneStep : WithinOneStep sampleQuantize := by
  intro q h0 _
  unfold sampleQuantize
  have h1 := Nat.floor_le h0
  have h2 := Nat.lt_floor_add_one q
  rw [abs_le]
  constructor <;> linarith

theorem sampleClusters_weights : WeightsFromAssignment sampleQuantize sampleClusters := by
  intro vertices
  refine ⟨vertices.map (fun v => Fin.ofNat (v.color 0)), List.length_map _ _, ?_⟩
  intro k
  simp only [sampleClusters]

/-- Instance of C12 at two coincident points, truncated weights and maximum depth two. -/
theorem cluster_weights_sum_witness :
    (WithinOneStep sampleQuantize ∧ WeightsFromAssignment sampleQuantize sampleClusters
        ∧ [sampleVertex, sampleVertex] ≠ [])
      ∧ OctreeNode.AllNodes
          (fun _ nodeVertex => |(∑ k : Fin 6, (nodeVertex.weights k : ℚ) / 255) - 1| ≤ 6 / 255)
          (OctreeNode.build sampleClusters 1 2 [sampleVertex, sampleVertex] Vector3.zero 1) :=
  ⟨⟨sampleQuantize_withinOneStep, sampleClusters_weights, List.cons_ne_nil _ _⟩,
    cluster_weights_sum sampleQuantize sampleClusters 1 2 [sampleVertex, sampleVertex]
      Vector3.zero 1 sampleQuantize_withinOneStep sampleClusters_weights
      (List.cons_ne_nil _ _)⟩

/-! ## Fixed-level traversal -/

theorem build_isNull (clusters : List Vertex → OctreeNode.ClusterSummary)
    (leafThreshold remaining : ℕ) (vertices : List Vertex) (center : Vector3) (size : ℝ) :
    (OctreeNode.build clusters leafThreshold remaining vertices center size).isNull = false := by
  cases remaining with
  | zero =>
    rw [build_zero]
    rfl
  | succ n =>
    rw [build_succ]
    split_ifs <;> rfl

theorem GetVerticesAtLevel_node (vertices : List Vertex) (nodeVertex : OctreeNodeVertex)
    (children : Fin 8 → OctreeNode) (level : ℤ) :
    (OctreeNode.node vertices nodeVertex children).GetVerticesAtLevel level
      = if level = 0 ∨ (List.finRange 8).all (fun i => (children i).isNull) = true then
          [nodeVertex]
        else
          (List.finRange 8).flatMap (fun i => (children i).GetVerticesAtLevel (level - 1)) := by
  rw [OctreeNode.GetVerticesAtLevel]

/-- A node with a child has a child that is not `NULL`. -/
theorem exists_child_of_not_all_null (children : Fin 8 → OctreeNode)
    (h : ¬ (List.finRange 8).all (fun i => (children i).isNull) = true) :
    ∃ i, (children i).isNull = false := by
  rw [List.all_eq_true] at h
  push_neg at h
  obtain ⟨i, _, hi⟩ := h
  exact ⟨i, by simpa using hi⟩

theorem not_all_null_of_child (children : Fin 8 → OctreeNode) (i : Fin 8)
    (hi : (children i).isNull = false) :
    ¬ (List.finRange 8).all (fun i => (children i).isNull) = true := by
  intro h
  rw [List.all_eq_true] at h
  have := h i (List.mem_finRange i)
  rw [hi] at this
  exact Bool.false_ne_true this

/-- The fixed-level traversal of a node emits at least one record. -/
theorem GetVerticesAtLevel_ne_nil (t : OctreeNode) :
    ∀ level : ℤ, t.isNull = false → t.GetVerticesAtLevel level ≠ [] := by
  induction t with
  | null =>
    intro level h
    cases h
  | node vertices nodeVertex children ih =>
    intro level _
    rw [GetVerticesAtLevel_node]
    split_ifs with hstop
    · exact List.cons_ne_nil _ _
    · have hall : ¬ (List.finRange 8).all (fun i => (children i).isNull) = true :=
        fun h => hstop (Or.inr h)
      obtain ⟨i, hi⟩ := exists_child_of_not_all_null children hall
      obtain ⟨r, hr⟩ := List.exists_mem_of_ne_nil _ (ih i (level - 1) hi)
      exact List.ne_nil_of_mem (List.mem_flatMap.mpr ⟨i, List.mem_finRange i, hr⟩)

/-- Every record emitted by the fixed-level traversal is the record of a node of the
tree. -/
theorem GetVerticesAtLevel_subset_records (t : OctreeNode) :
    ∀ (level : ℤ) (r : OctreeNodeVertex), r ∈ t.GetVerticesAtLevel level → r ∈ t.records := by
  induction t with
  | null =>
    intro level r h
    simp [OctreeNode.GetVerticesAtLevel] at h
  | node vertices nodeVertex children ih =>
    intro level r h
    rw [GetVerticesAtLevel_node] at h
    rw [OctreeNode.records]
    split_ifs at h with hstop
    · rw [List.mem_singleton] at h
      rw [h]
      exact List.mem_cons_self _ _
    · obtain ⟨i, hi, hr⟩ := List.mem_flatMap.mp h
      exact List.mem_cons_of_mem _ (List.mem_flatMap.mpr ⟨i, hi, ih i _ r hr⟩)

theorem LeafAt_isNull {t : OctreeNode} {depth : ℕ} {r : OctreeNodeVertex}
    (h : OctreeNode.LeafAt t depth r) : t.isNull = false := by
  cases h <;> rfl

/-- The record of a leaf that is not deeper than the requested level is emitted. -/
theorem LeafAt_mem_GetVerticesAtLevel {t : OctreeNode} {depth : ℕ} {r : OctreeNodeVertex}
    (h : OctreeNode.LeafAt t depth r) :
    ∀ level : ℤ, (depth : ℤ) ≤ level → r ∈ t.GetVerticesAtLevel level := by
  induction h with
  | leaf vertices nodeVertex children hall =>
    intro level _
    rw [GetVerticesAtLevel_node, if_pos (Or.inr hall)]
    exact List.mem_singleton.mpr rfl
  | deeper vertices nodeVertex children i depth r hchild ih =>
    intro level hle
    have hall := not_all_null_of_child children i (LeafAt_isNull hchild)
    have hlevel : level ≠ 0 := by
      push_cast at hle
      omega
    rw [GetVerticesAtLevel_node, if_neg (by
      intro hc
      rcases hc with hc | hc
      · exact hlevel hc
      · exact hall hc)]
    refine List.mem_flatMap.mpr ⟨i, List.mem_finRange i, ih (level - 1) ?_⟩
    push_cast at hle
    omega

/-- C13. Fixed-level traversal degrades gracefully: for every tree and every level `≥ 0`,
`GetVerticesAtLevel(level)` emits, for each branch that ends in a leaf at a depth smaller
than `level`, the record of that leaf; hence the result is non-empty, and every emitted
record is the record of a node of the tree. -/
theorem fixed_level_degrades_gracefully (t : OctreeNode) (level : ℤ) (_hlevel : 0 ≤ level)
    (ht : t.isNull = false) :
    (∀ (depth : ℕ) (r : OctreeNodeVertex),
        OctreeNode.LeafAt t depth r → (depth : ℤ) < level → r ∈ t.GetVerticesAtLevel level)
      ∧ t.GetVerticesAtLevel level ≠ []
      ∧ ∀ r ∈ t.GetVerticesAtLevel level, r ∈ t.records :=
  ⟨fun _ _ hleaf hlt => LeafAt_mem_GetVerticesAtLevel hleaf level (le_of_lt hlt),
    GetVerticesAtLevel_ne_nil t level ht,
    fun r hr => GetVerticesAtLevel_subset_records t level r hr⟩

/-- Instance of C13 at a tree built from two coincident points with maximum depth two,
asked for level five. -/
theorem fixed_level_degrades_gracefully_witness :
    ((0 : ℤ) ≤ 5
        ∧ (OctreeNode.build sampleClusters 1 2 [sampleVertex, sampleVertex] Vector3.zero
            1).isNull = false)
      ∧ (OctreeNode.build sampleClusters 1 2 [sampleVertex, sampleVertex] Vector3.zero
          1).GetVerticesAtLevel 5 ≠ [] :=
  ⟨⟨by norm_num, build_isNull _ _ _ _ _ _⟩,
    (fixed_level_degrades_gracefully
      (OctreeNode.build sampleClusters 1 2 [sampleVertex, sampleVertex] Vector3.zero 1) 5
      (by norm_num) (build_isNull _ _ _ _ _ _)).2.1⟩

/-! ## Camera-adaptive traversal -/

theorem GetVertices_stop (vertices : List Vertex) (nodeVertex : OctreeNodeVertex)
    (children : Fin 8 → OctreeNode) (localCameraPosition : Vector3) (splatSize : ℝ)
    (h : OctreeNode.stopsAt localCameraPosition splatSize
      (OctreeNode.node vertices nodeVertex children)) :
    (OctreeNode.node vertices nodeVertex children).GetVertices localCameraPosition splatSize
      = [nodeVertex] := by
  rw [OctreeNode.GetVertices]
  exact if_pos h

theorem GetVertices_descend (vertices : List Vertex) (nodeVertex : OctreeNodeVertex)
    (children : Fin 8 → OctreeNode) (localCameraPosition : Vector3) (splatSize : ℝ)
    (h : ¬ OctreeNode.stopsAt localCameraPosition splatSize
      (OctreeNode.node vertices nodeVertex children)) :
    (OctreeNode.node vertices nodeVertex children).GetVertices localCameraPosition splatSize
      = (List.finRange 8).flatMap
          (fun i => (children i).GetVertices localCameraPosition splatSize) := by
  rw [OctreeNode.GetVertices]
  exact if_neg h

theorem Reaches_trans {stop : OctreeNode → Prop} {a b c : OctreeNode}
    (hab : OctreeNode.Reaches stop a b) (hbc : OctreeNode.Reaches stop b c) :
    OctreeNode.Reaches stop a c := by
  induction hab with
  | here vertices nodeVertex children => exact hbc
  | down vertices nodeVertex children i n hstop _ ih =>
    exact OctreeNode.Reaches.down vertices nodeVertex children i c hstop (ih hbc)

theorem Reaches_self {stop : OctreeNode → Prop} (t : OctreeNode) (h : t.isNull = false) :
    OctreeNode.Reaches stop t t := by
  cases t with
  | null => cases h
  | node vertices nodeVertex children => exact OctreeNode.Reaches.here _ _ _

/-- The descent does not go below a node that stops it. -/
theorem Reaches_of_stop {stop : OctreeNode → Prop} {t n : OctreeNode}
    (h : OctreeNode.Reaches stop t n) (hstop : stop t) : n = t := by
  cases h with
  | here vertices nodeVertex children => rfl
  | down vertices nodeVertex children i n hns _ => exact absurd hstop hns

/-- Every emitted record belongs to a node that the descent arrives at and that stops
it. -/
theorem GetVertices_sound (localCameraPosition : Vector3) (splatSize : ℝ) (t : OctreeNode) :
    ∀ r, r ∈ t.GetVertices localCameraPosition splatSize →
      ∃ vertices children,
        OctreeNode.Reaches (OctreeNode.stopsAt localCameraPosition splatSize) t
            (OctreeNode.node vertices r children)
          ∧ OctreeNode.stopsAt localCameraPosition splatSize
              (OctreeNode.node vertices r children) := by
  induction t with
  | null =>
    intro r h
    simp [OctreeNode.GetVertices] at h
  | node vertices nodeVertex children ih =>
    intro r h
    by_cases hstop : OctreeNode.stopsAt localCameraPosition splatSize
        (OctreeNode.node vertices nodeVertex children)
    · rw [GetVertices_stop _ _ _ _ _ hstop, List.mem_singleton] at h
      rw [h]
      exact ⟨vertices, children, OctreeNode.Reaches.here _ _ _, hstop⟩
    · rw [GetVertices_descend _ _ _ _ _ hstop] at h
      obtain ⟨i, _, hr⟩ := List.mem_flatMap.mp h
      obtain ⟨vs, ch, hreach, hs⟩ := ih i r hr
      exact ⟨vs, ch, OctreeNode.Reaches.down _ _ _ i _ hstop hreach, hs⟩

/-- The record of every node that the descent arrives at and that stops it is emitted. -/
theorem GetVertices_complete (localCameraPosition : Vector3) (splatSize : ℝ)
    {t n : OctreeNode}
    (h : OctreeNode.Reaches (OctreeNode.stopsAt localCameraPosition splatSize) t n) :
    ∀ vertices r children, n = OctreeNode.node vertices r children →
      OctreeNode.stopsAt localCameraPosition splatSize n →
      r ∈ t.GetVertices localCameraPosition splatSize := by
  induction h with
  | here vertices nodeVertex children =>
    intro vs r ch heq hstop
    rw [GetVertices_stop _ _ _ _ _ hstop]
    cases heq
    exact List.mem_singleton.mpr rfl
  | down vertices nodeVertex children i n hns _ ih =>
    intro vs r ch heq hstop
    rw [GetVertices_descend _ _ _ _ _ hns]
    exact List.mem_flatMap.mpr ⟨i, List.mem_finRange i, ih vs r ch heq hstop⟩

/-- C14. Adaptive traversal rule: for every node visited by
`GetVertices(localCameraPosition, splatSize)`, the record of the node is emitted and its
subtree is not visited exactly when the node has no children or
`nodeVertex.size / distance(localCameraPosition, nodeVertex.position)` is below
`splatSize`; otherwise the node emits nothing of its own and every non-null child is
visited. The emitted records are those of the visited nodes that stop the descent. -/
theorem adaptive_traversal_rule (t : OctreeNode) (localCameraPosition : Vector3)
    (splatSize : ℝ) :
    (∀ vertices nodeVertex children,
        OctreeNode.Reaches (OctreeNode.stopsAt localCameraPosition splatSize) t
          (OctreeNode.node vertices nodeVertex children) →
        (OctreeNode.stopsAt localCameraPosition splatSize
            (OctreeNode.node vertices nodeVertex children) →
          (OctreeNode.node vertices nodeVertex children).GetVertices localCameraPosition
              splatSize = [nodeVertex]
            ∧ ∀ m, OctreeNode.Reaches (OctreeNode.stopsAt localCameraPosition splatSize)
                (OctreeNode.node vertices nodeVertex children) m →
              m = OctreeNode.node vertices nodeVertex children)
          ∧ (¬ OctreeNode.stopsAt localCameraPosition splatSize
              (OctreeNode.node vertices nodeVertex children) →
            (OctreeNode.node vertices nodeVertex children).GetVertices localCameraPosition
                splatSize
              = (List.finRange 8).flatMap
                  (fun i => (children i).GetVertices localCameraPosition splatSize)
            ∧ ∀ i, (children i).isNull = false →
                OctreeNode.Reaches (OctreeNode.stopsAt localCameraPosition splatSize) t
                  (children i)))
      ∧ ∀ r, r ∈ t.GetVertices localCameraPosition splatSize ↔
          ∃ vertices children,
            OctreeNode.Reaches (OctreeNode.stopsAt localCameraPosition splatSize) t
                (OctreeNode.node vertices r children)
              ∧ OctreeNode.stopsAt localCameraPosition splatSize
                  (OctreeNode.node vertices r children) := by
  refine ⟨fun vertices nodeVertex children hreach => ⟨fun hstop => ?_, fun hns => ?_⟩,
    fun r => ⟨GetVertices_sound localCameraPosition splatSize t r, ?_⟩⟩
  · exact ⟨GetVertices_stop _ _ _ _ _ hstop, fun m hm => Reaches_of_stop hm hstop⟩
  · refine ⟨GetVertices_descend _ _ _ _ _ hns, fun i hi => ?_⟩
    exact Reaches_trans hreach
      (OctreeNode.Reaches.down _ _ _ i _ hns (Reaches_self (children i) hi))
  · rintro ⟨vs, ch, hreach, hstop⟩
    exact GetVertices_complete localCameraPosition splatSize hreach vs r ch rfl hstop

/-- Instance of C14 at a single leaf: the traversal arrives at it, it has no children,
and its record is the result. -/
theorem adaptive_traversal_rule_witness :
    (OctreeNode.Reaches (OctreeNode.stopsAt Vector3.zero 1) sampleLeaf sampleLeaf
        ∧ OctreeNode.stopsAt Vector3.zero 1 sampleLeaf)
      ∧ sampleLeaf.GetVertices Vector3.zero 1 = [sampleNodeVertex] :=
  have hreach : OctreeNode.Reaches (OctreeNode.stopsAt Vector3.zero 1) sampleLeaf sampleLeaf :=
    OctreeNode.Reaches.here _ _ _
  have hstop : OctreeNode.stopsAt Vector3.zero 1 sampleLeaf := Or.inl (by decide)
  ⟨⟨hreach, hstop⟩,
    (((adaptive_traversal_rule sampleLeaf Vector3.zero 1).1 [sampleVertex] sampleNodeVertex
      (fun _ => OctreeNode.null) hreach).1 hstop).1⟩

/-! ## Vertex buffer capacity -/

/-- C24. `InitializeWindow` returns `true` on every path: when `RegisterClassEx` fails and
when `CreateWindowEx` returns no window it returns `1`, which as `bool` is `true`, exactly
as on success; the branch of `WinMain` guarded by `!InitializeWindow(...)` is never
taken. -/
theorem InitializeWindow_always_true (w : WindowSystem) (direct3d scene : Bool) :
    InitializeWindow w = true
      ∧ intToBool 1 = true
      ∧ InitializeWindow ⟨0, w.createWindowEx⟩ = intToBool 1
      ∧ InitializeWindow ⟨w.registerClassEx + 1, none⟩ = intToBool 1
      ∧ WinMain w direct3d scene ≠ WinMainOutcome.windowInitializationFailed := by
  have h1 : intToBool 1 = true := by decide
  have h : InitializeWindow w = true := by
    unfold InitializeWindow
    split_ifs
    · exact h1
    · exact h1
    · rfl
  refine ⟨h, h1, rfl, rfl, ?_⟩
  unfold WinMain
  rw [h]
  cases direct3d <;> cases scene <;> decide

/-! ## Colour quantization error -/

/-- The level of a channel, scaled back, is at most half a step away from the channel. -/
theorem channel_error (scale c : ℕ) (hs0 : 0 < scale) (hs : scale ≤ 63) (hc : c ≤ 255) :
    |(c : ℚ) - 255 * (Color16.channel scale c : ℚ) / scale| ≤ 255 / (2 * scale) := by
  have hle := channel_le scale c hs hc
  have hdiv := channel_eq_div scale c
  have hp : 2 * scale * c ≤ 2 * scale * 255 := Nat.mul_le_mul_left _ hc
  have h1 : 510 * Color16.channel scale c ≤ 2 * scale * c + 255 := by omega
  have h2 : 2 * scale * c + 255 < 510 * Color16.channel scale c + 510 := by omega
  have h1q : (510 : ℚ) * (Color16.channel scale c : ℚ) ≤ 2 * scale * c + 255 := by
    exact_mod_cast h1
  have h2q : (2 : ℚ) * scale * c + 255 < 510 * (Color16.channel scale c : ℚ) + 510 := by
    exact_mod_cast h2
  have hsq : (0 : ℚ) < scale := by exact_mod_cast hs0
  have key : (c : ℚ) - 255 * (Color16.channel scale c : ℚ) / scale
      = (2 * scale * c - 510 * (Color16.channel scale c : ℚ)) / (2 * scale) := by
    field_simp
    ring
  rw [key, abs_div, abs_of_pos (by positivity : (0 : ℚ) < 2 * scale)]
  apply div_le_div_of_nonneg_right _ (by positivity)
  rw [abs_le]
  constructor <;> linarith

/-- An odd multiple of `1 / (2 d)` is at least `1 / (2 d)` away from zero. -/
theorem odd_numerator_margin (n : ℤ) (d : ℚ) (hd : 0 < d) (hodd : n % 2 = 1) :
    1 / d ≤ |(n : ℚ) / d| := by
  have hn : n ≠ 0 := by omega
  have h1 : (1 : ℚ) ≤ |(n : ℚ)| := by
    have := Int.one_le_abs hn
    exact_mod_cast this
  rw [abs_div, abs_of_pos hd]
  exact div_le_div_of_nonneg_right h1 hd.le

/-- C22. Colour quantization error bound: for all `red`, `green`, `blue` in `0..255`, with
`R`, `G`, `B` the three fields of `Color16(red, green, blue).data`,
`|red − 255·R/63| ≤ 255/126`, `|green − 255·G/63| ≤ 255/126` and
`|blue − 255·B/15| ≤ 255/30` in exact rational arithmetic; no channel value is a rounding
tie: the scaled value stays `1/170` (red, green) or `1/34` (blue) away from every half
integer. -/
theorem Color16_quantization_error (red green blue : ℕ) (hr : red ≤ 255)
    (hg : green ≤ 255) (hb : blue ≤ 255) :
    |(red : ℚ) - 255 * ((Color16.ofRGB red green blue).data / 1024 : ℕ) / 63| ≤ 255 / 126
      ∧ |(green : ℚ) - 255 * ((Color16.ofRGB red green blue).data / 16 % 64 : ℕ) / 63|
          ≤ 255 / 126
      ∧ |(blue : ℚ) - 255 * ((Color16.ofRGB red green blue).data % 16 : ℕ) / 15| ≤ 255 / 30
      ∧ (∀ k : ℤ, 1 / 170 ≤ |63 * ((red : ℚ) / 255) - (k + 1 / 2)|)
      ∧ (∀ k : ℤ, 1 / 170 ≤ |63 * ((green : ℚ) / 255) - (k + 1 / 2)|)
      ∧ (∀ k : ℤ, 1 / 34 ≤ |15 * ((blue : ℚ) / 255) - (k + 1 / 2)|) := by
  have hR := channel_le 63 red (le_refl _) hr
  have hG := channel_le 63 green (le_refl _) hg
  have hB := channel_le 15 blue (by omega) hb
  have hdata := ofRGB_data red green blue hr hg hb
  have eR : (Color16.ofRGB red green blue).data / 1024 = Color16.channel 63 red := by omega
  have eG : (Color16.ofRGB red green blue).data / 16 % 64 = Color16.channel 63 green := by
    omega
  have eB : (Color16.ofRGB red green blue).data % 16 = Color16.channel 15 blue := by omega
  have bR := channel_error 63 red (by omega) (le_refl _) hr
  have bG := channel_error 63 green (by omega) (le_refl _) hg
  have bB := channel_error 15 blue (by omega) (by omega) hb
  rw [eR, eG, eB]
  have tie63 : ∀ (c : ℕ) (k : ℤ), 1 / 170 ≤ |63 * ((c : ℚ) / 255) - (k + 1 / 2)| := by
    intro c k
    have e : 63 * ((c : ℚ) / 255) - (k + 1 / 2)
        = ((42 * (c : ℤ) - 170 * k - 85 : ℤ) : ℚ) / 170 := by
      push_cast
      ring
    rw [e]
    exact odd_numerator_margin _ 170 (by norm_num) (by omega)
  have tie15 : ∀ (c : ℕ) (k : ℤ), 1 / 34 ≤ |15 * ((c : ℚ) / 255) - (k + 1 / 2)| := by
    intro c k
    have e : 15 * ((c : ℚ) / 255) - (k + 1 / 2)
        = ((2 * (c : ℤ) - 34 * k - 17 : ℤ) : ℚ) / 34 := by
      push_cast
      ring
    rw [e]
    exact odd_numerator_margin _ 34 (by norm_num) (by omega)
  refine ⟨?_, ?_, ?_, tie63 red, tie63 green, tie15 blue⟩
  · have e : (255 : ℚ) / (2 * ((63 : ℕ) : ℚ)) = 255 / 126 := by norm_num
    rw [e] at bR
    exact_mod_cast bR
  · have e : (255 : ℚ) / (2 * ((63 : ℕ) : ℚ)) = 255 / 126 := by norm_num
    rw [e] at bG
    exact_mod_cast bG
  · have e : (255 : ℚ) / (2 * ((15 : ℕ) : ℚ)) = 255 / 30 := by norm_num
    rw [e] at bB
    exact_mod_cast bB

/-- Instance of C22 at the colour `(255, 128, 7)`. -/
theorem Color16_quantization_error_witness :
    (255 ≤ 255 ∧ 128 ≤ 255 ∧ 7 ≤ 255)
      ∧ |((7 : ℕ) : ℚ) - 255 * ((Color16.ofRGB 255 128 7).data % 16 : ℕ) / 15| ≤ 255 / 30 :=
  ⟨by decide,
    (Color16_quantization_error 255 128 7 (by decide) (by decide) (by decide)).2.2.1⟩

/-! ## Normal encode ignores length -/

end PointCloudEngine
